import Mathlib

/-!
Verification of the rehearse workflow engine (Go) against its specification.

This file shallowly embeds the core of the engine — the expression
tokenizer, parser and evaluator, the trigger context lookup, the
dependency-aware analyzer, and the output/side-channel processing of the
executor — as executable Lean definitions translated from the Go source
(packages `workflow` and friends), and proves or refutes the frozen claims
about them.

Modelling conventions:
* Go `map[string]T` values are modelled as association lists
  (`List (String × T)`); `m[k]` is `List.lookup`, `m[k] = v` is `goMapSet`.
  Go map iteration order is unspecified; we iterate in list order.
* Go `float64` is modelled as `ℚ` (`vNum`).  No claim exercises binary
  floating-point rounding; the number literals involved are small decimals,
  on which decimal parsing into `ℚ` agrees with `float64`.
* Go `any` (interface) values are modelled by the inductive `GoValue`.
* A Go runtime panic (out-of-range slice index) is modelled by an explicit
  `Except Unit` error value, distinct from ordinary `error` returns.
* Strings are treated as sequences of characters; the Go code indexes
  byte-wise, but every slicing operation it performs happens on ASCII
  delimiters, where byte and character positions agree.
-/

/-! ## Go string primitives -/

/-- Unicode white space as tested by Go `unicode.IsSpace`, restricted to the
Latin-1 range that Go checks directly (space, tab, newline, vertical tab,
form feed, carriage return, NEL, NBSP). -/
def goIsSpace (c : Char) : Bool :=
  c.toNat = 32 || c.toNat = 9 || c.toNat = 10 || c.toNat = 11 ||
  c.toNat = 12 || c.toNat = 13 || c.toNat = 133 || c.toNat = 160

/-- Go `strings.TrimSpace`. -/
def goTrimSpace (s : String) : String :=
  String.mk (((s.toList.dropWhile goIsSpace).reverse.dropWhile goIsSpace).reverse)

/-- Go `strings.HasPrefix s pre`. -/
def goStartsWith (s pre : String) : Bool :=
  pre.toList.isPrefixOf s.toList

/-- Go `strings.HasSuffix s suf`. -/
def goEndsWith (s suf : String) : Bool :=
  suf.toList.isSuffixOf s.toList

/-- Substring search on character lists (Go `strings.Contains` core). -/
def listContainsSub : List Char → List Char → Bool
  | l, pat =>
    match l with
    | [] => pat.isPrefixOf ([] : List Char)
    | c :: cs => pat.isPrefixOf (c :: cs) || listContainsSub cs pat

/-- Go `strings.Contains s sub`. -/
def goContains (s sub : String) : Bool :=
  listContainsSub s.toList sub.toList

/-- Splitting on a single-character separator, on character lists:
Go `strings.Split` keeps empty fields. -/
def goSplitList (sep : Char) : List Char → List (List Char)
  | [] => [[]]
  | c :: cs =>
    if c = sep then [] :: goSplitList sep cs
    else
      match goSplitList sep cs with
      | [] => [[c]]
      | h :: t => (c :: h) :: t

/-- Go `strings.Split s (String.singleton sep)`. -/
def goSplitChar (sep : Char) (s : String) : List String :=
  (goSplitList sep s.toList).map String.mk

/-- Split a list at the first element satisfying the predicate, dropping
that element (helper for Go `strings.SplitN _ _ 2`). -/
def List.splitOnceP (p : α → Bool) : List α → Option (List α × List α)
  | [] => none
  | a :: as =>
    if p a then some ([], as)
    else match splitOnceP p as with
      | none => none
      | some (x, y) => some (a :: x, y)

/-- Go `strings.SplitN s sep 2` for a single-character separator: split at
the first occurrence only. -/
def goSplitN2 (sep : Char) (s : String) : List String :=
  match s.toList.splitOnceP (· = sep) with
  | none => [s]
  | some (a, b) => [String.mk a, String.mk b]

/-- Split on every element satisfying a predicate (keeping empty chunks).  -/
def goSplitListP (p : Char → Bool) : List Char → List (List Char)
  | [] => [[]]
  | c :: cs =>
    if p c then [] :: goSplitListP p cs
    else
      match goSplitListP p cs with
      | [] => [[c]]
      | h :: t => (c :: h) :: t

/-- Go `strings.Fields`: split around runs of white space, no empty fields. -/
def goFields (s : String) : List String :=
  ((goSplitListP goIsSpace s.toList).filter (· ≠ [])).map String.mk

/-- Go `strings.Join xs sep`. -/
def goJoin (xs : List String) (sep : String) : String :=
  String.intercalate sep xs

/-- Go `strings.ReplaceAll s "\x00" ""`: delete every NUL character. -/
def goStripNul (s : String) : String :=
  String.mk (s.toList.filter (fun c => c.toNat ≠ 0))

/-- A single-quote character, used by the Go trace formatter. -/
def squote : String := String.mk [Char.ofNat 39]

/-! ## Go maps as association lists -/

/-- Go `m[k]` (comma-ok form): first binding of `k`. -/
def goMapGet (m : List (String × α)) (k : String) : Option α :=
  match m with
  | [] => none
  | (k', v) :: rest => if k' = k then some v else goMapGet rest k

/-- Go `m[k] = v`: replace the existing binding or append a fresh one. -/
def goMapSet (m : List (String × α)) (k : String) (v : α) : List (String × α) :=
  match m with
  | [] => [(k, v)]
  | (k', v') :: rest => if k' = k then (k, v) :: rest else (k', v') :: goMapSet rest k v

theorem goMapGet_goMapSet_self (m : List (String × α)) (k : String) (v : α) :
    goMapGet (goMapSet m k v) k = some v := by
  induction m with
  | nil => simp [goMapGet, goMapSet]
  | cons h t ih =>
    obtain ⟨k', v'⟩ := h
    by_cases hk : k' = k
    · simp [goMapGet, goMapSet, hk]
    · simp [goMapGet, goMapSet, hk, ih]

theorem goMapGet_goMapSet_ne (m : List (String × α)) (k k' : String) (v : α)
    (h : k ≠ k') : goMapGet (goMapSet m k v) k' = goMapGet m k' := by
  induction m with
  | nil => simp [goMapGet, goMapSet, h]
  | cons hd t ih =>
    obtain ⟨k₀, v₀⟩ := hd
    by_cases hk : k₀ = k
    · subst hk
      simp [goMapGet, goMapSet, h]
    · by_cases hk' : k₀ = k'
      · subst hk'
        simp [goMapGet, goMapSet, hk]
      · simp [goMapGet, goMapSet, hk, hk', ih]

/-! ## The Go `any` value model and evaluator primitives (evaluator.go) -/

/-- The rational value of a Go `float64`: an exact fraction with positive
denominator (always a power of ten here).  Kept unreduced so that every
operation is kernel-computable (no gcd normalisation).  Exact for the
decimal literals the engine parses; binary-float rounding is not exercised
by any claim. -/
structure GoFloat where
  num : Int
  den : Nat
deriving DecidableEq

/-- `a < b` on exact fractions (cross multiplication; denominators are
positive by construction). -/
def GoFloat.lt (a b : GoFloat) : Bool := a.num * (b.den : Int) < b.num * (a.den : Int)

/-- `a ≤ b` on exact fractions. -/
def GoFloat.le (a b : GoFloat) : Bool := a.num * (b.den : Int) ≤ b.num * (a.den : Int)

/-- Model of the Go `any` values that flow through the evaluator: `nil`,
`bool`, `string`, `int`, `float64` (as an exact fraction), `[]any`,
`map[string]any`. -/
inductive GoValue where
  | vNull : GoValue
  | vBool (b : Bool) : GoValue
  | vString (s : String) : GoValue
  | vInt (n : Int) : GoValue
  | vNum (x : GoFloat) : GoValue
  | vList (xs : List GoValue) : GoValue
  | vMap (m : List (String × GoValue)) : GoValue

open GoValue

/-- Decimal digits of the fractional remainder `r / den` (long division,
up to 20 digits — always exact here since `den` is a power of ten). -/
def goFormatFloatFrac : Nat → Nat → Nat → String
  | 0, _, _ => ""
  | fuel + 1, r, den =>
    if r = 0 then ""
    else toString (r * 10 / den) ++ goFormatFloatFrac fuel (r * 10 % den) den

/-- Render an exact fraction the way Go `fmt` renders the `float64` it
models for the decimal values exercised here: no fractional part for
integers, otherwise the decimal expansion. -/
def goFormatFloat (x : GoFloat) : String :=
  let sign := if x.num < 0 then "-" else ""
  let a := x.num.natAbs
  let ip := a / x.den
  let fr := goFormatFloatFrac 20 (a % x.den) x.den
  if fr = "" then sign ++ toString ip else sign ++ toString ip ++ "." ++ fr

mutual
/-- Go `toString` (`fmt.Sprintf "%v"` on non-nil values, `""` on nil).
`fmt` prints map keys sorted; key order is not modelled here (no claim
renders a map). -/
def goToString : GoValue → String
  | vNull => ""
  | vBool b => if b then "true" else "false"
  | vString s => s
  | vInt n => toString n
  | vNum q => goFormatFloat q
  | vList xs => "[" ++ goJoin (goToStringList xs) " " ++ "]"
  | vMap m => "map[" ++ goJoin (goToStringPairs m) " " ++ "]"

def goToStringList : List GoValue → List String
  | [] => []
  | v :: vs => goToString v :: goToStringList vs

def goToStringPairs : List (String × GoValue) → List String
  | [] => []
  | (k, v) :: rest => (k ++ ":" ++ goToString v) :: goToStringPairs rest
end

/-- Go `equals`: string representations compared byte for byte. -/
def equals (a b : GoValue) : Bool :=
  goToString a == goToString b

/-- Go `toBool`.  The Go source reads

```
case int, int64, float64:
    return val != 0
```

In a multi-type `case`, `val` keeps the interface type `any`, so `val != 0`
is an interface comparison against the untyped constant `0`, which defaults
to `int`.  Interface values are equal only when their dynamic types match,
so a `float64` operand (the type every number literal evaluates to) is
*never* equal to `int(0)`: `toBool(float64(0))` is `true`.  Only an `int`
zero compares equal and yields `false`. -/
def toBool : GoValue → Bool
  | vBool b => b
  | vString s => s ≠ ""
  | vNull => false
  | vInt n => n ≠ 0
  | vNum _ => true
  | _ => true

/-- Go `toFloat`: numbers convert, everything else coerces to 0. -/
def toFloat : GoValue → GoFloat
  | vNum x => x
  | vInt n => ⟨n, 1⟩
  | _ => ⟨0, 1⟩

/-- Go `formatValue` (trace rendering). -/
def formatValue : GoValue → String
  | vNull => "null"
  | vBool b => if b then "true" else "false"
  | vString s => squote ++ s ++ squote
  | v => goToString v

/-- Go `applyBinaryOp`. -/
def applyBinaryOp (op : String) (left right : GoValue) : GoValue :=
  if op = "==" then vBool (equals left right)
  else if op = "!=" then vBool (!(equals left right))
  else if op = "&&" then vBool (toBool left && toBool right)
  else if op = "||" then vBool (toBool left || toBool right)
  else if op = "<" then vBool (GoFloat.lt (toFloat left) (toFloat right))
  else if op = ">" then vBool (GoFloat.lt (toFloat right) (toFloat left))
  else if op = "<=" then vBool (GoFloat.le (toFloat left) (toFloat right))
  else if op = ">=" then vBool (GoFloat.le (toFloat right) (toFloat left))
  else vNull

/-- Go `applyUnaryOp`. -/
def applyUnaryOp (op : String) (operand : GoValue) : GoValue :=
  if op = "!" then vBool (!toBool operand) else vNull

/-- Go `strings.ReplaceAll s pat repl` on character lists (used by
`formatString` with the never-empty placeholder patterns). -/
def replaceAllSub (pat repl : List Char) (s : List Char) : List Char :=
  match s with
  | [] => []
  | c :: cs =>
    if pat ≠ [] && pat.isPrefixOf (c :: cs) then
      repl ++ replaceAllSub pat repl ((c :: cs).drop pat.length)
    else c :: replaceAllSub pat repl cs
  termination_by s.length
  decreasing_by
    all_goals simp_wf
    · rename_i h
      have hp : pat ≠ [] := by
        intro hnil
        simp [hnil] at h
      have hl : 1 ≤ pat.length := by
        cases pat with
        | nil => exact absurd rfl hp
        | cons a as => simp
      omega

/-- Go `formatString` (positional `\x7b0\x7d`, `\x7b1\x7d`, … substitution). -/
def formatString (format : String) (args : List GoValue) : String :=
  let rec go (i : Nat) (acc : String) : List GoValue → String
    | [] => acc
    | a :: rest =>
      let placeholder := "\x7b" ++ toString i ++ "\x7d"
      go (i + 1) (String.mk (replaceAllSub acc.toList placeholder.toList (goToString a).toList)) rest
  go 0 format args

/-- Go `joinArray`. -/
def joinArray (v : GoValue) (sep : String) : String :=
  match v with
  | vList arr => goJoin (goToStringList arr) sep
  | _ => goToString v

/-- Go `callFunction`: the built-in expression functions. -/
def callFunction (name : String) (args : List GoValue) : Except String GoValue :=
  if name = "contains" then
    if args.length ≠ 2 then .error "contains requires 2 arguments"
    else .ok (vBool (goContains (goToString (args.getD 0 vNull)) (goToString (args.getD 1 vNull))))
  else if name = "startsWith" then
    if args.length ≠ 2 then .error "startsWith requires 2 arguments"
    else .ok (vBool (goStartsWith (goToString (args.getD 0 vNull)) (goToString (args.getD 1 vNull))))
  else if name = "endsWith" then
    if args.length ≠ 2 then .error "endsWith requires 2 arguments"
    else .ok (vBool (goEndsWith (goToString (args.getD 0 vNull)) (goToString (args.getD 1 vNull))))
  else if name = "format" then
    if args.length < 1 then .error "format requires at least 1 argument"
    else .ok (vString (formatString (goToString (args.getD 0 vNull)) args.tail))
  else if name = "join" then
    if args.length < 1 || args.length > 2 then .error "join requires 1 or 2 arguments"
    else
      let sep := if args.length = 2 then goToString (args.getD 1 vNull) else ","
      .ok (vString (joinArray (args.getD 0 vNull) sep))
  else if name = "always" then .ok (vBool true)
  else if name = "success" then .ok (vBool true)
  else if name = "failure" then .ok (vBool false)
  else if name = "cancelled" then .ok (vBool false)
  else .error ("unknown function: " ++ name)

/-! ## Trigger Context (context.go) -/

/-- `JobContext` from context.go. -/
structure JobContext where
  status : String := ""
  outputs : List (String × String) := []
deriving DecidableEq, Repr

/-- `StepContext` from context.go. -/
structure StepContext where
  outcome : String := ""
  outputs : List (String × String) := []
deriving DecidableEq, Repr

/-- `GitHubContext` from context.go. -/
structure GitHubContext where
  eventName : String := ""
  ref : String := ""
  sha : String := ""
  actor : String := ""
  repository : String := ""
  workspace : String := ""
  event : List (String × GoValue) := []

/-- `Context` from context.go. -/
structure Context where
  github : GitHubContext := {}
  env : List (String × String) := []
  secrets : List (String × String) := []
  jobs : List (String × JobContext) := []
  steps : List (String × StepContext) := []
  matrix : List (String × GoValue) := []

/-- Character loop of `splitPath` (context.go): split on `.`, dropping empty
segments.  `cur` holds the current segment reversed. -/
def splitPathGo : List Char → List Char → List String
  | [], cur => if cur = [] then [] else [String.mk cur.reverse]
  | c :: cs, cur =>
    if c = '.' then
      if cur = [] then splitPathGo cs []
      else String.mk cur.reverse :: splitPathGo cs []
    else splitPathGo cs (c :: cur)

/-- `splitPath` from context.go. -/
def splitPath (path : String) : List String :=
  splitPathGo path.toList []

/-- `lookupMap` from context.go: nested traversal of the event payload. -/
def lookupMap (m : List (String × GoValue)) : List String → GoValue × Bool
  | [] => (GoValue.vMap m, true)
  | p :: rest =>
    match goMapGet m p with
    | none => (GoValue.vNull, false)
    | some v =>
      if rest = [] then (v, true)
      else
        match v with
        | GoValue.vMap nested => lookupMap nested rest
        | _ => (GoValue.vNull, false)

/-- `lookupGitHub` from context.go. -/
def lookupGitHub (c : Context) (parts : List String) : GoValue × Bool :=
  match parts with
  | [] => (GoValue.vNull, false)
  | p :: rest =>
    if p = "event_name" then (GoValue.vString c.github.eventName, true)
    else if p = "ref" then (GoValue.vString c.github.ref, true)
    else if p = "sha" then (GoValue.vString c.github.sha, true)
    else if p = "actor" then (GoValue.vString c.github.actor, true)
    else if p = "repository" then (GoValue.vString c.github.repository, true)
    else if p = "workspace" then (GoValue.vString c.github.workspace, true)
    else if p = "event" then
      if rest = [] then (GoValue.vMap c.github.event, true)
      else lookupMap c.github.event rest
    else (GoValue.vNull, false)

/-- `lookupJobs` from context.go.  The source guards `len(parts) > 2`
(compare `lookupSteps`, which guards `len(parts) < 2`), so `parts[0]` is
read on a possibly empty slice and `parts[1]` on a possibly one-element
slice; those out-of-range reads are Go runtime panics, modelled as
`.error ()`.  The guard also makes the `len(parts) == 3` outputs branch
unreachable. -/
def lookupJobs (c : Context) (parts : List String) : Except Unit (GoValue × Bool) :=
  if parts.length > 2 then .ok (GoValue.vNull, false)
  else
    match parts with
    | [] => .error ()
    | p0 :: rest =>
      match goMapGet c.jobs p0 with
      | none => .ok (GoValue.vNull, false)
      | some job =>
        match rest with
        | [] => .error ()
        | p1 :: rest2 =>
          if p1 = "status" then .ok (GoValue.vString job.status, true)
          else if p1 = "outputs" then
            if parts.length = 3 then
              match rest2 with
              | p2 :: _ =>
                (match goMapGet job.outputs p2 with
                 | some v => .ok (GoValue.vString v, true)
                 | none => .ok (GoValue.vString "", false))
              | [] => .ok (GoValue.vNull, false)
            else .ok (GoValue.vNull, false)
          else .ok (GoValue.vNull, false)

/-- `lookupSteps` from context.go (correctly guarded, never panics). -/
def lookupSteps (c : Context) (parts : List String) : GoValue × Bool :=
  match parts with
  | [] => (GoValue.vNull, false)
  | [_] => (GoValue.vNull, false)
  | p0 :: p1 :: rest2 =>
    match goMapGet c.steps p0 with
    | none => (GoValue.vNull, false)
    | some step =>
      if p1 = "outcome" then (GoValue.vString step.outcome, true)
      else if p1 = "outputs" then
        if rest2.length = 1 then
          match rest2 with
          | p2 :: _ =>
            (match goMapGet step.outputs p2 with
             | some v => (GoValue.vString v, true)
             | none => (GoValue.vString "", false))
          | [] => (GoValue.vNull, false)
        else (GoValue.vNull, false)
      else (GoValue.vNull, false)

/-- `Lookup` from context.go.  A `.error ()` result models a Go runtime
panic escaping `Lookup` (only possible through `lookupJobs`). -/
def Lookup (c : Context) (path : String) : Except Unit (GoValue × Bool) :=
  let parts := splitPath path
  match parts with
  | [] => .ok (GoValue.vNull, false)
  | p0 :: rest =>
    if p0 = "github" then .ok (lookupGitHub c rest)
    else if p0 = "env" then
      .ok (match rest with
           | [p1] =>
             (match goMapGet c.env p1 with
              | some v => (GoValue.vString v, true)
              | none => (GoValue.vString "", false))
           | _ => (GoValue.vNull, false))
    else if p0 = "secrets" then
      .ok (match rest with
           | [p1] =>
             (match goMapGet c.secrets p1 with
              | some v => (GoValue.vString v, true)
              | none => (GoValue.vString "", false))
           | _ => (GoValue.vNull, false))
    else if p0 = "jobs" then lookupJobs c rest
    else if p0 = "steps" then .ok (lookupSteps c rest)
    else if p0 = "matrix" then
      .ok (match rest with
           | [p1] =>
             (match goMapGet c.matrix p1 with
              | some v => (v, true)
              | none => (GoValue.vNull, false))
           | _ => (GoValue.vNull, false))
    else .ok (GoValue.vNull, false)

/-- A context that has recorded one completed job, `build`. -/
def ctxJobsEx : Context :=
  { jobs := [("build", { status := "success", outputs := [("artifact", "a.tgz")] })] }

/-- C3: the claim says `Lookup` never panics and yields not-found on
malformed arity.  In the source, `lookupJobs` guards `len(parts) > 2`
where `lookupSteps` guards `len(parts) < 2`; consequently `Lookup "jobs"`
reads `parts[0]` of an empty slice and `Lookup "jobs.<name>"` (with the job
recorded) reads `parts[1]` of a one-element slice — both runtime panics
(`.error ()` here) — while well-formed `jobs.<name>.status` still works and
the `jobs.<name>.outputs.<o>` arm is unreachable (always not-found).  This
contradicts the spec and the guard in the sibling `lookupSteps`. -/
theorem lookup_jobs_arity_panics :
    (∀ c : Context, Lookup c "jobs" = .error ()) ∧
    Lookup ctxJobsEx "jobs.build" = .error () ∧
    Lookup ctxJobsEx "jobs.missing" = .ok (GoValue.vNull, false) ∧
    Lookup ctxJobsEx "jobs.build.status" = .ok (GoValue.vString "success", true) ∧
    Lookup ctxJobsEx "jobs.build.outputs.artifact" = .ok (GoValue.vNull, false) :=
  ⟨fun _ => rfl, rfl, rfl, rfl, rfl⟩

/-- C4: the claim says numeric zero — including the `float64` zero produced
by the number parser — is falsy for `&&`/`||`/`!`.  The Go `toBool` uses a
multi-type `case int, int64, float64:` with `return val != 0`, an interface
comparison against `int(0)`; a `float64` operand never equals it, so the
float zero is *truthy*: `toBool(float64(0))` is `true`, `!0` evaluates to
`false`, and `0 && true` evaluates to `true`.  Only an `int` zero (which no
literal ever produces) is falsy, as the spec intends for all numeric
zeros. -/
theorem toBool_float_zero_truthy :
    toBool (GoValue.vNum ⟨0, 1⟩) = true ∧
    applyUnaryOp "!" (GoValue.vNum ⟨0, 1⟩) = GoValue.vBool false ∧
    applyBinaryOp "&&" (GoValue.vNum ⟨0, 1⟩) (GoValue.vBool true) = GoValue.vBool true ∧
    toBool (GoValue.vInt 0) = false :=
  ⟨rfl, rfl, rfl, by decide⟩

/-! ## Tokenizer (tokenizer.go) -/

/-- `TokenType` from tokenizer.go (`TokenDot` is declared there but never
produced: identifiers swallow dots). -/
inductive TokenType where
  | ident | str | number | bool | null
  | lparen | rparen | comma | dot
  | eq | neq | and | or | not | lt | gt | lte | gte | eof
deriving DecidableEq

/-- `Token` from tokenizer.go. -/
structure Token where
  type : TokenType
  value : String
deriving DecidableEq

/-- The numeric value of a `TokenType` (iota order), for the Go `%v`
rendering of a token in parser error messages. -/
def tokenTypeNum : TokenType → Nat
  | .ident => 0 | .str => 1 | .number => 2 | .bool => 3 | .null => 4
  | .lparen => 5 | .rparen => 6 | .comma => 7 | .dot => 8
  | .eq => 9 | .neq => 10 | .and => 11 | .or => 12 | .not => 13
  | .lt => 14 | .gt => 15 | .lte => 16 | .gte => 17 | .eof => 18

/-- The single-quote character that delimits string literals. -/
def quoteChar : Char := Char.ofNat 39

/-- Character class of Go `unicode.IsLetter` restricted to ASCII (the only
letters the claims exercise). -/
def goIsLetter (c : Char) : Bool := c.isAlpha

/-- ASCII lower-casing (Go `strings.ToLower` on the keyword candidates). -/
def goCharToLower (c : Char) : Char :=
  if c.toNat ≥ 65 ∧ c.toNat ≤ 90 then Char.ofNat (c.toNat + 32) else c

/-- Go `strings.ToLower`, ASCII range. -/
def goToLower (s : String) : String := String.mk (s.toList.map goCharToLower)

mutual
/-- Character loop of `tokenize` (tokenizer.go).  Every iteration consumes
at least one character, so the fuel `l.length + 1` supplied by `tokenize`
is never exhausted; the fuel-out branch is unreachable. -/
def tokenizeGo : Nat → List Char → Except String (List Token)
  | 0, _ => .error "out of fuel"
  | _ + 1, [] => .ok [⟨.eof, ""⟩]
  | fuel + 1, c :: cs =>
    if goIsSpace c then tokenizeGo fuel cs
    else
      -- two-character operators
      match c :: cs with
      | c1 :: c2 :: rest =>
        if c1 = '=' ∧ c2 = '=' then (tokenizeGo fuel rest).map (⟨.eq, "=="⟩ :: ·)
        else if c1 = '!' ∧ c2 = '=' then (tokenizeGo fuel rest).map (⟨.neq, "!="⟩ :: ·)
        else if c1 = '&' ∧ c2 = '&' then (tokenizeGo fuel rest).map (⟨.and, "&&"⟩ :: ·)
        else if c1 = '|' ∧ c2 = '|' then (tokenizeGo fuel rest).map (⟨.or, "||"⟩ :: ·)
        else if c1 = '<' ∧ c2 = '=' then (tokenizeGo fuel rest).map (⟨.lte, "<="⟩ :: ·)
        else if c1 = '>' ∧ c2 = '=' then (tokenizeGo fuel rest).map (⟨.gte, ">="⟩ :: ·)
        else tokenizeOne fuel c cs
      | _ => tokenizeOne fuel c cs

/-- Single-character tokens, string literals, numbers and identifiers
(the remainder of the `tokenize` loop body). -/
def tokenizeOne : Nat → Char → List Char → Except String (List Token)
  | 0, _, _ => .error "out of fuel"
  | fuel + 1, c, cs =>
  if c = '(' then (tokenizeGo fuel cs).map (⟨.lparen, "("⟩ :: ·)
  else if c = ')' then (tokenizeGo fuel cs).map (⟨.rparen, ")"⟩ :: ·)
  else if c = ',' then (tokenizeGo fuel cs).map (⟨.comma, ","⟩ :: ·)
  else if c = '!' then (tokenizeGo fuel cs).map (⟨.not, "!"⟩ :: ·)
  else if c = '<' then (tokenizeGo fuel cs).map (⟨.lt, "<"⟩ :: ·)
  else if c = '>' then (tokenizeGo fuel cs).map (⟨.gt, ">"⟩ :: ·)
  else if c = quoteChar then
    let content := cs.takeWhile (· ≠ quoteChar)
    match cs.dropWhile (· ≠ quoteChar) with
    | [] => .error "unterminated string"
    | _ :: rest => (tokenizeGo fuel rest).map (⟨.str, String.mk content⟩ :: ·)
  else if c.isDigit ∨ (c = '-' ∧ (cs.headD ' ').isDigit) then
    let body := if c = '-' then cs else c :: cs
    let digits := body.takeWhile (fun ch => ch.isDigit || ch = '.')
    let rest := body.dropWhile (fun ch => ch.isDigit || ch = '.')
    let value := (if c = '-' then "-" else "") ++ String.mk digits
    (tokenizeGo fuel rest).map (⟨.number, value⟩ :: ·)
  else if goIsLetter c ∨ c = '_' then
    let p := fun ch => goIsLetter ch || ch.isDigit || ch = '_' || ch = '.'
    let word := c :: cs.takeWhile p
    let rest := cs.dropWhile p
    let value := String.mk word
    let low := goToLower value
    let tok : Token :=
      if low = "true" then ⟨.bool, "true"⟩
      else if low = "false" then ⟨.bool, "false"⟩
      else if low = "null" then ⟨.null, "null"⟩
      else ⟨.ident, value⟩
    (tokenizeGo fuel rest).map (tok :: ·)
  else .error ("unexpected character: " ++ String.mk [c])
end

/-- `tokenize` from tokenizer.go. -/
def tokenize (expr : String) : Except String (List Token) :=
  tokenizeGo (2 * expr.toList.length + 2) expr.toList

/-! ## Expression parser (tokenizer.go, parser part) -/

/-- AST `Node` from tokenizer.go. -/
inductive Node where
  | literal (v : GoValue) : Node
  | contextAccess (path : String) : Node
  | binaryOp (op : String) (left right : Node) : Node
  | unaryOp (op : String) (operand : Node) : Node
  | functionCall (name : String) (args : List Node) : Node

/-- `p.current()`: the next token, or EOF past the end. -/
def curTok : List Token → Token
  | [] => ⟨.eof, ""⟩
  | t :: _ => t

/-- Go `%v` rendering of a `Token` struct, used in the
"unexpected token" parser error. -/
def tokenErrString (t : Token) : String :=
  "unexpected token: \x7b" ++ toString (tokenTypeNum t.type) ++ " " ++ t.value ++ "\x7d"

/-- The `float64` a number literal parses to (`fmt.Sscanf "%f"`): optional
sign, integer digits, at most one fraction part; scanning stops at a second
dot.  Exact on the decimal literals the tokenizer produces. -/
def parseGoFloat (s : String) : GoFloat :=
  let l := s.toList
  let (neg, l₁) :=
    match l with
    | c :: rest => if c = '-' then (true, rest) else (false, l)
    | [] => (false, l)
  let ds := l₁.takeWhile Char.isDigit
  let l₂ := l₁.dropWhile Char.isDigit
  let ipart : Nat := ds.foldl (fun a c => a * 10 + (c.toNat - 48)) 0
  let (fnum, fden) : Nat × Nat :=
    match l₂ with
    | c :: rest =>
      if c = '.' then
        let fs := rest.takeWhile Char.isDigit
        (fs.foldl (fun a c => a * 10 + (c.toNat - 48)) 0, 10 ^ fs.length)
      else (0, 1)
    | [] => (0, 1)
  let n : Int := (ipart * fden + fnum : Nat)
  ⟨if neg then -n else n, fden⟩

mutual
/-- `p.parse()` from tokenizer.go: recursive descent, lowest precedence
first.  The Go parser recurses on the token stream via a cursor; here the
remaining token list is threaded explicitly and a fuel argument bounds the
recursion depth (`parse` supplies ample fuel for the token count; Go's
recursion depth is likewise bounded by the input length since every
recursive cycle consumes a token or errors out). -/
def parseGo : Nat → List Token → Except String (Node × List Token)
  | 0, _ => .error "out of fuel"
  | fuel + 1, ts => parseOr fuel ts

def parseOr : Nat → List Token → Except String (Node × List Token)
  | 0, _ => .error "out of fuel"
  | fuel + 1, ts =>
    match parseAnd fuel ts with
    | .error e => .error e
    | .ok (left, ts) => parseOrLoop fuel left ts

def parseOrLoop : Nat → Node → List Token → Except String (Node × List Token)
  | 0, _, _ => .error "out of fuel"
  | fuel + 1, left, ts =>
    if (curTok ts).type = .or then
      match parseAnd fuel ts.tail with
      | .error e => .error e
      | .ok (right, ts') => parseOrLoop fuel (.binaryOp "||" left right) ts'
    else .ok (left, ts)

def parseAnd : Nat → List Token → Except String (Node × List Token)
  | 0, _ => .error "out of fuel"
  | fuel + 1, ts =>
    match parseEquality fuel ts with
    | .error e => .error e
    | .ok (left, ts) => parseAndLoop fuel left ts

def parseAndLoop : Nat → Node → List Token → Except String (Node × List Token)
  | 0, _, _ => .error "out of fuel"
  | fuel + 1, left, ts =>
    if (curTok ts).type = .and then
      match parseEquality fuel ts.tail with
      | .error e => .error e
      | .ok (right, ts') => parseAndLoop fuel (.binaryOp "&&" left right) ts'
    else .ok (left, ts)

def parseEquality : Nat → List Token → Except String (Node × List Token)
  | 0, _ => .error "out of fuel"
  | fuel + 1, ts =>
    match parseComparison fuel ts with
    | .error e => .error e
    | .ok (left, ts) => parseEqualityLoop fuel left ts

def parseEqualityLoop : Nat → Node → List Token → Except String (Node × List Token)
  | 0, _, _ => .error "out of fuel"
  | fuel + 1, left, ts =>
    if (curTok ts).type = .eq ∨ (curTok ts).type = .neq then
      let op := (curTok ts).value
      match parseComparison fuel ts.tail with
      | .error e => .error e
      | .ok (right, ts') => parseEqualityLoop fuel (.binaryOp op left right) ts'
    else .ok (left, ts)

def parseComparison : Nat → List Token → Except String (Node × List Token)
  | 0, _ => .error "out of fuel"
  | fuel + 1, ts =>
    match parseUnary fuel ts with
    | .error e => .error e
    | .ok (left, ts) => parseComparisonLoop fuel left ts

def parseComparisonLoop : Nat → Node → List Token → Except String (Node × List Token)
  | 0, _, _ => .error "out of fuel"
  | fuel + 1, left, ts =>
    if (curTok ts).type = .lt ∨ (curTok ts).type = .gt ∨
       (curTok ts).type = .lte ∨ (curTok ts).type = .gte then
      let op := (curTok ts).value
      match parseUnary fuel ts.tail with
      | .error e => .error e
      | .ok (right, ts') => parseComparisonLoop fuel (.binaryOp op left right) ts'
    else .ok (left, ts)

def parseUnary : Nat → List Token → Except String (Node × List Token)
  | 0, _ => .error "out of fuel"
  | fuel + 1, ts =>
    if (curTok ts).type = .not then
      match parseUnary fuel ts.tail with
      | .error e => .error e
      | .ok (operand, ts') => .ok (.unaryOp "!" operand, ts')
    else parsePrimary fuel ts

def parsePrimary : Nat → List Token → Except String (Node × List Token)
  | 0, _ => .error "out of fuel"
  | fuel + 1, ts =>
    let t := curTok ts
    match t.type with
    | .str => .ok (.literal (vString t.value), ts.tail)
    | .number => .ok (.literal (vNum (parseGoFloat t.value)), ts.tail)
    | .bool => .ok (.literal (vBool (t.value = "true")), ts.tail)
    | .null => .ok (.literal vNull, ts.tail)
    | .ident =>
      if (curTok ts.tail).type = .lparen then parseFunctionCall fuel t.value ts.tail
      else .ok (.contextAccess t.value, ts.tail)
    | .lparen =>
      match parseGo fuel ts.tail with
      | .error e => .error e
      | .ok (node, ts') =>
        if (curTok ts').type = .rparen then .ok (node, ts'.tail)
        else .error "expected closing paren"
    | _ => .error (tokenErrString t)

/-- `p.parseFunctionCall` from tokenizer.go.  Receives the token stream
positioned at the opening parenthesis (already peeked). -/
def parseFunctionCall : Nat → String → List Token → Except String (Node × List Token)
  | 0, _, _ => .error "out of fuel"
  | fuel + 1, name, ts => parseCallArgs fuel [] name ts.tail

def parseCallArgs : Nat → List Node → String → List Token → Except String (Node × List Token)
  | 0, _, _, _ => .error "out of fuel"
  | fuel + 1, args, name, ts =>
    if (curTok ts).type = .rparen then .ok (.functionCall name args.reverse, ts.tail)
    else
      match parseGo fuel ts with
      | .error e => .error e
      | .ok (arg, ts') =>
        let ts'' := if (curTok ts').type = .comma then ts'.tail else ts'
        parseCallArgs fuel (arg :: args) name ts''
end

/-! ## Evaluator (evaluator.go) -/

/-- An evaluator outcome that is not a normal result: a Go `error` return,
or a runtime panic escaping from `Context.Lookup`. -/
inductive EvalErr where
  | panic : EvalErr
  | fail (msg : String) : EvalErr
deriving DecidableEq

/-- `Result` from evaluator.go: value plus human-readable trace. -/
structure EvalResult where
  value : GoValue
  trace : String

mutual
/-- `(*Evaluator).eval` from evaluator.go.  The `UnaryOpNode` arm is absent
from the extracted source file (which references `applyUnaryOp` but whose
`eval` switch as extracted would not compile); it is
`Modelled from the spec:` unary `!` applies the truthiness table to the
evaluated operand (via the source's `applyUnaryOp`), producing a trace in
the same style as the binary case.  No claim exercises that trace. -/
def eval (c : Context) : Node → Except EvalErr EvalResult
  | .literal v => .ok ⟨v, formatValue v⟩
  | .contextAccess path =>
    (match Lookup c path with
     | .error () => .error .panic
     | .ok (val, ok) =>
       if ok then .ok ⟨val, path ++ " -> " ++ formatValue val⟩
       else .ok ⟨vNull, path ++ " -> null"⟩)
  | .binaryOp op l r =>
    (match eval c l with
     | .error e => .error e
     | .ok left =>
       match eval c r with
       | .error e => .error e
       | .ok right =>
         let result := applyBinaryOp op left.value right.value
         .ok ⟨result, left.trace ++ " " ++ op ++ " " ++ right.trace ++ " -> " ++ formatValue result⟩)
  | .unaryOp op x =>
    (match eval c x with
     | .error e => .error e
     | .ok operand =>
       let result := applyUnaryOp op operand.value
       .ok ⟨result, op ++ operand.trace ++ " -> " ++ formatValue result⟩)
  | .functionCall name args =>
    (match evalArgs c args with
     | .error e => .error e
     | .ok (vals, traces) =>
       match callFunction name vals with
       | .error e => .error (.fail e)
       | .ok result =>
         .ok ⟨result, name ++ "(" ++ goJoin traces ", " ++ ") -> " ++ formatValue result⟩)

/-- Left-to-right evaluation of function-call arguments, accumulating
values and traces (the loop inside the `FunctionCallNode` arm). -/
def evalArgs (c : Context) : List Node → Except EvalErr (List GoValue × List String)
  | [] => .ok ([], [])
  | a :: rest =>
    (match eval c a with
     | .error e => .error e
     | .ok r =>
       match evalArgs c rest with
       | .error e => .error e
       | .ok (vals, traces) => .ok (r.value :: vals, r.trace :: traces))
end

/-- `(*Evaluator).Evaluate` from evaluator.go: strip an optional
`$\x7b\x7b ... \x7d\x7d` wrapper, tokenize, parse, eval.  The parser is run
with fuel ample for the token count (the Go recursion depth is bounded the
same way); the result ignores unconsumed trailing tokens, as Go's
`p.parse()` does. -/
def Evaluate (c : Context) (expr : String) : Except EvalErr EvalResult :=
  let expr := goTrimSpace expr
  let expr :=
    if goStartsWith expr "$\x7b\x7b" && goEndsWith expr "\x7d\x7d" then
      goTrimSpace (String.mk ((expr.toList.drop 3).dropLast.dropLast))
    else expr
  match tokenize expr with
  | .error e => .error (.fail ("tokenize: " ++ e))
  | .ok tokens =>
    match parseGo (10 * (tokens.length + 2)) tokens with
    | .error e => .error (.fail ("parsing: " ++ e))
    | .ok (node, _) => eval c node

example : Evaluate {} "true" = .ok ⟨vBool true, "true"⟩ := rfl
example : Evaluate {} "1 < 2" = .ok ⟨vBool true, "1 < 2 -> true"⟩ := rfl

/-! ## Workflow data model (types.go) -/

/-- `Step` from types.go (`with` is a Lean keyword: `withArgs`; `if` is a
Lean keyword: `ifCond`). -/
structure Step where
  id : String := ""
  name : String := ""
  ifCond : String := ""
  run : String := ""
  uses : String := ""
  withArgs : List (String × String) := []
  env : List (String × String) := []
deriving DecidableEq, Repr

/-- `Job` from types.go.  `runsOn`/`needs` hold the normalised label/job
lists of the `RunsOn`/`Needs` union wrappers; `container` holds the image
of the optional container override. -/
structure Job where
  name : String := ""
  runsOn : List String := []
  needs : List String := []
  ifCond : String := ""
  env : List (String × String) := []
  steps : List Step := []
  outputs : List (String × String) := []
  container : Option String := none
deriving DecidableEq, Repr

/-- `Workflow` from types.go (`jobs` keeps the YAML insertion order of the
Go map; map iteration order is unspecified in Go, and no claim depends on
the particular order of independent jobs). -/
structure Workflow where
  name : String := ""
  env : List (String × String) := []
  jobs : List (String × Job) := []
deriving DecidableEq, Repr

/-- `RunsOn.String()` from types.go. -/
def runsOnString (labels : List String) : String :=
  match labels with
  | [l] => l
  | _ => "[" ++ goJoin labels ", " ++ "]"

/-- `a.workflow.Jobs[name]` (zero `Job` when absent) — `.needs`. -/
def needsOf (w : Workflow) (name : String) : List String :=
  ((goMapGet w.jobs name).getD {}).needs

/-! ## Analyzer (analyzer.go) -/

/-- `ConditionResult` from analyzer.go. -/
structure ConditionResult where
  expression : String := ""
  value : Bool := false
  trace : String := ""
deriving DecidableEq, Repr

/-- `StepResult` from analyzer.go. -/
structure StepResult where
  name : String := ""
  type : String := ""
  action : String := ""
  command : String := ""
  condition : Option ConditionResult := none
  wouldRun : Bool := false
deriving DecidableEq, Repr

/-- `JobResult` from analyzer.go. -/
structure JobResult where
  name : String := ""
  runsOn : String := ""
  needs : List String := []
  condition : Option ConditionResult := none
  wouldRun : Bool := false
  skipReason : String := ""
  steps : List StepResult := []
deriving DecidableEq, Repr

/-- `AnalysisResult` from analyzer.go; `ctxJobs` is the state of
`ctx.Jobs` after the `Analyze` loop finished mutating it. -/
structure AnalysisResult where
  workflowName : String := ""
  trigger : String := ""
  jobs : List JobResult := []
  ctxJobs : List (String × JobContext) := []
deriving Repr

/-- `truncate` from analyzer.go: first line, cut to `max` bytes with an
ellipsis (character positions; the inputs exercised are ASCII). -/
def truncate (s : String) (max : Nat) : String :=
  let firstLine := s.toList.takeWhile (· ≠ '\n')
  if firstLine.length > max then String.mk (firstLine.take (max - 3)) ++ "..."
  else String.mk firstLine

/-- `(*Analyzer).evaluateCondition` from analyzer.go: an evaluation error
becomes a false condition with the error text as trace; a non-boolean value
is coerced to `false`; a panic (`none`) propagates. -/
def evaluateCondition (c : Context) (expr : String) : Option ConditionResult :=
  match Evaluate c expr with
  | .error .panic => none
  | .error (.fail e) => some ⟨expr, false, "error: " ++ e⟩
  | .ok result =>
    let boolVal := match result.value with | vBool b => b | _ => false
    some ⟨expr, boolVal, result.trace⟩

/-- `(*Analyzer).analyzeStep` from analyzer.go. -/
def analyzeStep (c : Context) (step : Step) : Option StepResult :=
  let name :=
    if step.name = "" then
      if step.run ≠ "" then truncate step.run 40
      else if step.uses ≠ "" then step.uses
      else ""
    else step.name
  let type := if step.uses ≠ "" then "action" else "run"
  if step.ifCond ≠ "" then
    match evaluateCondition c step.ifCond with
    | none => none
    | some cr =>
      some { name := name, type := type, action := step.uses, command := step.run,
             condition := some cr, wouldRun := cr.value }
  else
    some { name := name, type := type, action := step.uses, command := step.run,
           condition := none, wouldRun := true }

/-- The step loop of `analyzeJob`. -/
def analyzeStepsList (c : Context) : List Step → Option (List StepResult)
  | [] => some []
  | s :: rest =>
    match analyzeStep c s with
    | none => none
    | some r =>
      match analyzeStepsList c rest with
      | none => none
      | some rs => some (r :: rs)

/-- The dependency loop of `analyzeJob`: the first dependency whose
*recorded* status is not `success` (an unrecorded dependency is skipped —
the comma-ok lookup fails and the loop moves on). -/
def firstUnsatisfied (ctxJobs : List (String × JobContext)) : List String → Option String
  | [] => none
  | d :: ds =>
    match goMapGet ctxJobs d with
    | some jc => if jc.status ≠ "success" then some d else firstUnsatisfied ctxJobs ds
    | none => firstUnsatisfied ctxJobs ds

/-- The condition block of `analyzeJob` (analyzer.go): given whether the
dependencies were satisfied and the dependency skip reason, evaluate the
optional `if:` and produce (condition result, would-run, skip reason), or
`none` on a panic. -/
def analyzeJobCond (effCtx : Context) (needsSatisfied : Bool) (skipReason0 : String)
    (ifCond : String) : Option (Option ConditionResult × Bool × String) :=
  if ifCond ≠ "" then
    match evaluateCondition effCtx ifCond with
    | none => none
    | some cr =>
      if !cr.value then some (some cr, false, "condition evaluated to false")
      else if needsSatisfied then some (some cr, true, skipReason0)
      else some (some cr, false, skipReason0)
  else some (none, needsSatisfied, skipReason0)

/-- `(*Analyzer).analyzeJob` from analyzer.go.  `ctxJobs` is the current
state of the mutable `ctx.Jobs` map; condition evaluation sees it. -/
def analyzeJob (c : Context) (ctxJobs : List (String × JobContext))
    (name : String) (job : Job) : Option JobResult :=
  let needsRes := firstUnsatisfied ctxJobs job.needs
  let needsSatisfied := needsRes.isNone
  let skipReason0 :=
    match needsRes with
    | some dep => "dependency " ++ squote ++ dep ++ squote ++ " was skipped"
    | none => ""
  let effCtx := { c with jobs := ctxJobs }
  match analyzeJobCond effCtx needsSatisfied skipReason0 job.ifCond with
  | none => none
  | some (cond, wouldRun, skipReason1) =>
    let skipReason :=
      if !needsSatisfied && skipReason1 = "" then "dependency not satisfied"
      else skipReason1
    match analyzeStepsList effCtx job.steps with
    | none => none
    | some stepResults =>
      some { name := name, runsOn := runsOnString job.runsOn, needs := job.needs,
             condition := cond, wouldRun := wouldRun, skipReason := skipReason,
             steps := stepResults }

/-- DFS state of `topologicalSort`: the `visited` set (a Go
`map[string]bool`, here the list of marked names) and the emitted order. -/
structure TopoSt where
  visited : List String := []
  order : List String := []
deriving DecidableEq, Repr

/-- `visit` from `topologicalSort` (analyzer.go).  The name is marked
visited *before* its dependencies are visited, so the recursion never
revisits a name: its depth is bounded by the number of distinct names, and
the fuel supplied by `topologicalSort` is never exhausted (proved below as
`visitGo_fuel_stable`). -/
def visitGo : Nat → Workflow → String → TopoSt → TopoSt
  | 0, _, _, st => st
  | fuel + 1, w, name, st =>
    if st.visited.contains name then st
    else
      let st1 : TopoSt := ⟨name :: st.visited, st.order⟩
      let st2 := (needsOf w name).foldl (fun s d => visitGo fuel w d s) st1
      ⟨st2.visited, st2.order ++ [name]⟩

/-- Every name the DFS can ever touch: the job keys and every name listed
in a `needs`. -/
def univList (w : Workflow) : List String :=
  w.jobs.map Prod.fst ++ (w.jobs.map (fun p => p.2.needs)).join

/-- `topologicalSort` (analyzer.go) at an explicit recursion-depth fuel. -/
def topologicalSortFuel (fuel : Nat) (w : Workflow) : List String :=
  (w.jobs.foldl (fun st p => visitGo fuel w p.1 st) {}).order

/-- `topologicalSort` from analyzer.go (fuel ample for the name universe). -/
def topologicalSort (w : Workflow) : List String :=
  topologicalSortFuel ((univList w).length + 1) w

/-- The job loop of `Analyze`, threading the mutable `ctx.Jobs` map:
each job is analyzed against the map as mutated by the previous
iterations, and its own status is recorded before the next job runs. -/
def analyzeLoop (c : Context) (w : Workflow) :
    List String → List (String × JobContext) → Option (List JobResult × List (String × JobContext))
  | [], ctxJobs => some ([], ctxJobs)
  | n :: rest, ctxJobs =>
    let job := (goMapGet w.jobs n).getD {}
    match analyzeJob c ctxJobs n job with
    | none => none
    | some jr =>
      let status := if jr.wouldRun then "success" else "skipped"
      match analyzeLoop c w rest (goMapSet ctxJobs n { status := status }) with
      | none => none
      | some (rs, final) => some (jr :: rs, final)

/-- `(*Analyzer).Analyze` from analyzer.go.  Returns `none` only when a
condition evaluation panics (via the `jobs.*` lookup defect); there is no
error return in the source — in particular no cycle detection. -/
def Analyze (w : Workflow) (c : Context) : Option AnalysisResult :=
  let order := topologicalSort w
  match analyzeLoop c w order c.jobs with
  | none => none
  | some (jobs, finalJobs) =>
    some { workflowName := w.name, trigger := c.github.eventName,
           jobs := jobs, ctxJobs := finalJobs }

/-- The two-job dependency cycle used to test `Analyze` on a cyclic graph. -/
def wCyc : Workflow :=
  { name := "cyc",
    jobs := [("a", { needs := ["b"] }), ("b", { needs := ["a"] })] }

example : topologicalSort wCyc = ["b", "a"] := rfl

/-! ## Executor run-time state and side-channel processing (executor.go) -/

/-- The slice of `Runtime` (executor.go) the claims observe: working
directory, dynamic environment, per-step outputs, scratch directory. -/
structure Runtime where
  workingDir : String := ""
  dynamicEnv : List (String × String) := []
  stepOutputs : List (String × List (String × String)) := []
  tempDir : String := ""
deriving DecidableEq, Repr

/-- The two side-channel files plus the outcome the file system would give
to the executor's read / clear calls: `envFile`/`outFile` are the
`os.ReadFile` results (`.error` = I/O failure), `envWriteErr`/`outWriteErr`
make the corresponding `os.WriteFile` truncation fail. -/
structure SideFiles where
  envFile : Except String String := .ok ""
  outFile : Except String String := .ok ""
  envWriteErr : Option String := none
  outWriteErr : Option String := none
deriving Repr

/-- One iteration of the `KEY=VALUE` line loop in
`processStepOutputFiles` (executor.go): trim the line, skip it unless it
contains `=`, trim key and value, drop empty keys. -/
def mergeKVLine (m : List (String × String)) (line : String) : List (String × String) :=
  let line := goTrimSpace line
  if line ≠ "" then
    match goSplitN2 '=' line with
    | [k, v] =>
      let key := goTrimSpace k
      let value := goTrimSpace v
      if key ≠ "" then goMapSet m key value else m
    | _ => m
  else m

/-- The whole line loop: split the (already trimmed, NUL-stripped) content
on newlines and merge each line.  (The Go source repeats this loop verbatim
for the environment file and the output file.) -/
def mergeKVContent (m : List (String × String)) (contentStr : String) : List (String × String) :=
  if contentStr ≠ "" then (goSplitChar '\n' contentStr).foldl mergeKVLine m else m

/-- `(*Executor).processStepOutputFiles` from executor.go.  Returns the
updated run-time state, the updated files, and the `error` return value.
A failed read is silently skipped (the `err == nil` guard); a failed
truncation aborts with an error, after the map mutations already
happened. -/
def processStepOutputFiles (stepID : String) (rt : Runtime) (fs : SideFiles) :
    Runtime × SideFiles × Option String :=
  if rt.tempDir = "" then (rt, fs, none)
  else
    let envStage : Runtime × SideFiles × Option String :=
      match fs.envFile with
      | .ok content =>
        if content ≠ "" then
          let contentStr := goStripNul (goTrimSpace content)
          let rt' := { rt with dynamicEnv := mergeKVContent rt.dynamicEnv contentStr }
          match fs.envWriteErr with
          | some e => (rt', fs, some ("clear GITHUB_ENV file: " ++ e))
          | none => (rt', { fs with envFile := .ok "" }, none)
        else (rt, fs, none)
      | .error _ => (rt, fs, none)
    match envStage with
    | (rt₁, fs₁, some e) => (rt₁, fs₁, some e)
    | (rt₁, fs₁, none) =>
      match fs₁.outFile with
      | .ok content =>
        if content ≠ "" then
          let so :=
            match goMapGet rt₁.stepOutputs stepID with
            | none => goMapSet rt₁.stepOutputs stepID []
            | some _ => rt₁.stepOutputs
          let contentStr := goStripNul (goTrimSpace content)
          let cur := (goMapGet so stepID).getD []
          let rt' := { rt₁ with stepOutputs := goMapSet so stepID (mergeKVContent cur contentStr) }
          match fs₁.outWriteErr with
          | some e => (rt', fs₁, some ("clear GITHUB_OUTPUT file: " ++ e))
          | none => (rt', { fs₁ with outFile := .ok "" }, none)
        else (rt₁, fs₁, none)
      | .error _ => (rt₁, fs₁, none)

/-- `ExecutionStepResult` from executor.go. -/
structure ExecutionStepResult where
  success : Bool := false
  exitCode : Int := 0
  outputs : List (String × String) := []
deriving DecidableEq, Repr

/-- One registered step executor, abstracted over the container work: the
`CanExecute` predicate and the outcome its `Execute` would produce on the
step at hand. -/
structure StepExecSpec where
  can : Step → Bool
  outcome : Except String ExecutionStepResult

/-- `(*Executor).executeStep` from executor.go: find the first matching
executor, run it, and — after a successful step — process the side-channel
files; a processing error is only surfaced as a rendered warning (returned
here as the warning list) and the step still succeeds.  The step-context
bookkeeping (outcome/conclusion strings, merged result outputs), which no
claim observes, is not tracked. -/
def executeStepGo (step : Step) (rt : Runtime) (fs : SideFiles) :
    List StepExecSpec → Except String (Runtime × SideFiles × List String)
  | [] => .error ("no executor found for step: " ++ step.name)
  | ex :: rest =>
    if ex.can step then
      match ex.outcome with
      | .error e => .error e
      | .ok result =>
        if result.success then
          match processStepOutputFiles step.id rt fs with
          | (rt', fs', some e) => .ok (rt', fs', ["failed to process output files: " ++ e])
          | (rt', fs', none) => .ok (rt', fs', [])
        else .error ("step failed with exit code " ++ toString result.exitCode)
    else executeStepGo step rt fs rest

/-- Normalisation of an output expression by `evaluateOutputExpression`
(executor.go): trim, strip a `$\x7b\x7b ... \x7d\x7d` wrapper, collapse
internal white space. -/
def outputExprNormalize (expression : String) : String :=
  let expr0 := goTrimSpace expression
  if goStartsWith expr0 "$\x7b\x7b" && goEndsWith expr0 "\x7d\x7d" then
    let inner := goTrimSpace (String.mk ((expr0.toList.drop 3).dropLast.dropLast))
    goJoin (goFields inner) " "
  else expr0

/-- `(*Executor).evaluateOutputExpression` from executor.go. -/
def evaluateOutputExpression (rt : Runtime) (expression : String) : String :=
  let expr := outputExprNormalize expression
  let stepsVal : Option String :=
    if goStartsWith expr "steps." && goContains expr ".outputs." then
      match goSplitChar '.' expr with
      | p0 :: p1 :: p2 :: p3 :: _ =>
        if p0 = "steps" ∧ p2 = "outputs" then
          match goMapGet rt.stepOutputs p1 with
          | some so => goMapGet so p3
          | none => none
        else none
      | _ => none
    else none
  match stepsVal with
  | some v => v
  | none =>
    if goStartsWith expr "env." then
      match goMapGet rt.dynamicEnv (String.mk (expr.toList.drop 4)) with
      | some v => v
      | none => ""
    else if goStartsWith expr "steps." || goStartsWith expr "env." then ""
    else expression

/-- The per-output loop of `processJobOutputs` (executor.go), evaluating
each declared output expression into the job context outputs. -/
def processJobOutputs (rt : Runtime) (outputs : List (String × String)) :
    List (String × String) :=
  outputs.foldl (fun acc p => goMapSet acc p.1 (evaluateOutputExpression rt p.2)) []

/-- `(*ActionStepExecutor).executeCompositeAction` from step_executors.go,
abstracted over the nested `ShellStepExecutor.Execute` container work
(`shellExec`).  Only steps with a `run` command execute anything; any other
step — in particular a `uses:` step — falls through the `if` silently. -/
def executeCompositeAction (shellExec : Step → Except String ExecutionStepResult) :
    List Step → Except String ExecutionStepResult
  | [] => .ok { success := true, exitCode := 0, outputs := [] }
  | s :: rest =>
    if s.run ≠ "" then
      match shellExec s with
      | .error e => .error ("composite step failed: " ++ e)
      | .ok _ => executeCompositeAction shellExec rest
    else executeCompositeAction shellExec rest

/-- C8 counterexample: the claim says a composite action containing a
`uses:` step fails explicitly and is never silently skipped.  In the
source, the loop body only handles `compositeStep.Run != ""`; a nested
`uses:` step matches nothing and is skipped with no error: the composite
action reports success, and the shell executor is never invoked (had it
been, this run would have returned the injected error). -/
theorem composite_uses_step_skipped :
    executeCompositeAction (fun _ => .error "shell executor invoked")
      [{ uses := "actions/checkout@v4" }] =
      .ok { success := true, exitCode := 0, outputs := [] } := rfl

/-- C8 amended: a composite action executes only its `run:` steps; every
step without a `run` command — `uses:` steps included — is silently
skipped, and a composite action consisting solely of such steps
always returns success without invoking the shell executor at all. -/
theorem composite_skips_non_run_steps
    (shellExec : Step → Except String ExecutionStepResult) (steps : List Step)
    (h : ∀ s ∈ steps, s.run = "") :
    executeCompositeAction shellExec steps =
      .ok { success := true, exitCode := 0, outputs := [] } := by
  induction steps with
  | nil => rfl
  | cons s rest ih =>
    have hs : s.run = "" := h s (List.mem_cons_self s rest)
    simp only [executeCompositeAction, hs]
    exact ih (fun x hx => h x (List.mem_cons_of_mem s hx))

/-- Closed instantiation of `composite_skips_non_run_steps` at a concrete
composite action holding one `uses:` step. -/
theorem composite_skips_non_run_steps_witness :
    executeCompositeAction (fun _ => .error "no shell work expected")
      [{ uses := "owner/repo@v1" }, { uses := "./local" }] =
      .ok { success := true, exitCode := 0, outputs := [] } :=
  composite_skips_non_run_steps _ _ (by decide)

/-- C9 counterexample: the claim says a side-channel file I/O error after a
step is fatal to the job and run.  In the source, `executeStep` only
renders the `processStepOutputFiles` error as a warning and returns `nil`:
here the truncation of GITHUB_ENV fails with `disk full`, the merged
dynamic environment is kept, a warning is produced — and the step still
reports success (`.ok`), so nothing aborts. -/
theorem executeStep_io_error_not_fatal :
    executeStepGo { id := "s1", run := "echo hi" }
      { tempDir := "/tmp/rehearse-github-x" }
      { envFile := .ok "A=B\n", envWriteErr := some "disk full" }
      [{ can := fun s => s.run ≠ "", outcome := .ok { success := true } }] =
      .ok ({ tempDir := "/tmp/rehearse-github-x", dynamicEnv := [("A", "B")] },
           { envFile := .ok "A=B\n", envWriteErr := some "disk full" },
           ["failed to process output files: clear GITHUB_ENV file: disk full"]) := rfl

/-- C9 amended: side-channel file I/O failures are never fatal.  Read
errors are silently ignored; a failed truncation makes
`processStepOutputFiles` return an error, which `executeStep` converts
into a rendered warning — with a matching executor whose run succeeded,
`executeStep` returns success whatever the file system did. -/
theorem executeStep_succeeds_despite_io
    (step : Step) (rt : Runtime) (fs : SideFiles) (ex : StepExecSpec)
    (hcan : ex.can step = true) (res : ExecutionStepResult)
    (hout : ex.outcome = .ok res) (hsucc : res.success = true) :
    ∃ rt' fs' warns, executeStepGo step rt fs [ex] = .ok (rt', fs', warns) := by
  simp only [executeStepGo, hcan, hout, hsucc, if_true]
  rcases hp : processStepOutputFiles step.id rt fs with ⟨rt', fs', perr⟩
  cases perr with
  | none => exact ⟨rt', fs', [], rfl⟩
  | some e => exact ⟨rt', fs', ["failed to process output files: " ++ e], rfl⟩

/-- Closed instantiation of `executeStep_succeeds_despite_io`: both reads
fail and both writes would fail, yet the step execution returns `.ok`. -/
theorem executeStep_succeeds_despite_io_witness :
    ∃ rt' fs' warns,
      executeStepGo { id := "s", run := "true" } { tempDir := "/t" }
        { envFile := .error "read failed", outFile := .error "read failed",
          envWriteErr := some "w1", outWriteErr := some "w2" }
        [{ can := fun s => s.run ≠ "", outcome := .ok { success := true } }] =
        .ok (rt', fs', warns) :=
  executeStep_succeeds_despite_io _ _ _ _ (by decide) { success := true } rfl rfl

/-! ## Side-channel processing: supporting lemmas and the C6/C9 facts -/

theorem splitOnceP_eq_none {p : α → Bool} {l : List α}
    (h : ∀ a ∈ l, ¬ p a) : List.splitOnceP p l = none := by
  induction l with
  | nil => rfl
  | cons a as ih =>
    have ha : p a = false := by
      have := h a (List.mem_cons_self a as)
      simpa using this
    simp [List.splitOnceP, ha, ih (fun x hx => h x (List.mem_cons_of_mem a hx))]

theorem mem_goTrimSpace_toList {s : String} {ch : Char}
    (h : ch ∈ (goTrimSpace s).toList) : ch ∈ s.toList := by
  simp only [goTrimSpace] at h
  have h1 : ch ∈ ((s.toList.dropWhile goIsSpace).reverse.dropWhile goIsSpace) := by
    simpa using h
  have h2 : ch ∈ (s.toList.dropWhile goIsSpace).reverse :=
    (List.dropWhile_sublist goIsSpace).mem h1
  have h3 : ch ∈ s.toList.dropWhile goIsSpace := List.mem_reverse.mp h2
  exact (List.dropWhile_sublist goIsSpace).mem h3

/-- A line without `=` never changes the map (the Go loop silently skips
it). -/
theorem mergeKVLine_skip_without_eq (m : List (String × String)) (line : String)
    (h : ∀ ch ∈ line.toList, ch ≠ '=') : mergeKVLine m line = m := by
  simp only [mergeKVLine]
  by_cases he : goTrimSpace line = ""
  · simp [he]
  · have hn : List.splitOnceP (fun x => decide (x = '=')) (goTrimSpace line).data = none := by
      apply splitOnceP_eq_none
      intro a ha
      have := h a (mem_goTrimSpace_toList ha)
      simpa using this
    simp [he, goSplitN2, String.toList, hn]

/-- C6: processing the side-channel files after a successful step.
Conjuncts: (1) the spec's idempotence scenario — `KEY=VALUE\n` in the
environment file merges exactly `KEY ↦ VALUE` into the dynamic environment
and the file is left empty; (2) files with no content leave the state (and
files) unchanged, whatever the write behaviour would have been; (3) a line
without `=` is silently skipped; (4) whitespace around keys and values is
trimmed; (5) on readable files with working truncation, both files are
empty afterwards for every content; (6) embedded NUL bytes are stripped
before parsing; (7) the output file merges into that step's output map. -/
theorem processStepOutputFiles_spec :
    (∀ (sid wd : String) (d : List (String × String)) (so : List (String × List (String × String))),
        processStepOutputFiles sid ⟨wd, d, so, "/t"⟩
          { envFile := .ok "KEY=VALUE\n", outFile := .ok "" } =
          (⟨wd, goMapSet d "KEY" "VALUE", so, "/t"⟩,
           { envFile := .ok "", outFile := .ok "" }, none)) ∧
    (∀ (sid wd : String) d so (e₁ e₂ : Option String),
        processStepOutputFiles sid ⟨wd, d, so, "/t"⟩
          { envFile := .ok "", outFile := .ok "", envWriteErr := e₁, outWriteErr := e₂ } =
          (⟨wd, d, so, "/t"⟩,
           { envFile := .ok "", outFile := .ok "", envWriteErr := e₁, outWriteErr := e₂ }, none)) ∧
    (∀ (m : List (String × String)) (line : String),
        (∀ ch ∈ line.toList, ch ≠ '=') → mergeKVLine m line = m) ∧
    (∀ m, mergeKVContent m "  KEY  =  VALUE  " = goMapSet m "KEY" "VALUE") ∧
    (∀ (sid wd : String) d so (c₁ c₂ : String),
        (processStepOutputFiles sid ⟨wd, d, so, "/t"⟩
           { envFile := .ok c₁, outFile := .ok c₂ }).2.1.envFile = .ok "" ∧
        (processStepOutputFiles sid ⟨wd, d, so, "/t"⟩
           { envFile := .ok c₁, outFile := .ok c₂ }).2.1.outFile = .ok "") ∧
    (∀ (sid wd : String) d so,
        processStepOutputFiles sid ⟨wd, d, so, "/t"⟩
          { envFile := .ok ("KEY=VA" ++ String.mk [Char.ofNat 0] ++ "LUE\n"), outFile := .ok "" } =
          (⟨wd, goMapSet d "KEY" "VALUE", so, "/t"⟩,
           { envFile := .ok "", outFile := .ok "" }, none)) ∧
    (∀ (wd : String) d,
        processStepOutputFiles "build" ⟨wd, d, [], "/t"⟩
          { outFile := .ok "version=1.2.3\n" } =
          (⟨wd, d, [("build", [("version", "1.2.3")])], "/t"⟩,
           { envFile := .ok "", outFile := .ok "" }, none)) := by
  refine ⟨fun _ _ _ _ => rfl, fun _ _ _ _ _ _ => rfl, mergeKVLine_skip_without_eq,
    fun _ => rfl, ?_, fun _ _ _ _ => rfl, fun _ _ => rfl⟩
  intro sid wd d so c₁ c₂
  by_cases h1 : c₁ = "" <;> by_cases h2 : c₂ = ""
  · subst h1; subst h2; exact ⟨rfl, rfl⟩
  · subst h1; simp [processStepOutputFiles, h2]
  · subst h2; simp [processStepOutputFiles, h1]
  · simp [processStepOutputFiles, h1, h2]

/-- Closed instantiation of `processStepOutputFiles_spec` (the
malformed-line conjunct, which carries the hypothesis): a line with no `=`
leaves the map untouched. -/
theorem processStepOutputFiles_spec_witness :
    mergeKVLine [("X", "1")] "INVALID_LINE" = [("X", "1")] :=
  processStepOutputFiles_spec.2.2.1 _ _ (by decide)

/-- C10: the analyzer's recorded condition value is `true` only when the
expression evaluated to the boolean `true`.  Conjuncts: (1) in general,
for any non-panicking evaluation, the recorded value is `true` iff
`Evaluate` returned exactly the boolean `true`, and an evaluation error is
recorded as value `false` with the error text in the trace; (2) the
non-empty string literal evaluates to a string, so its condition value is
`false` even though (3) the logical operators would treat that string as
truthy; (4) an unknown function is an evaluation error, recorded as
`false` with the error text; (5) the non-zero number literal `3` likewise
yields condition value `false`, though (6) it is truthy for the logical
operators. -/
theorem evaluateCondition_bool_gate :
    (∀ (c : Context) (expr : String) (cr : ConditionResult),
        evaluateCondition c expr = some cr →
        ((cr.value = true ↔ ∃ tr, Evaluate c expr = .ok ⟨vBool true, tr⟩) ∧
         (∀ e, Evaluate c expr = .error (.fail e) →
            cr = ⟨expr, false, "error: " ++ e⟩))) ∧
    evaluateCondition {} (squote ++ "abc" ++ squote) =
      some ⟨squote ++ "abc" ++ squote, false, squote ++ "abc" ++ squote⟩ ∧
    toBool (vString "abc") = true ∧
    evaluateCondition {} "noSuchFn()" =
      some ⟨"noSuchFn()", false, "error: unknown function: noSuchFn"⟩ ∧
    evaluateCondition {} "3" = some ⟨"3", false, "3"⟩ ∧
    toBool (vNum ⟨3, 1⟩) = true := by
  refine ⟨?_, rfl, rfl, rfl, rfl, rfl⟩
  intro c expr cr h
  unfold evaluateCondition at h
  cases hev : Evaluate c expr with
  | error err =>
    cases err with
    | panic => rw [hev] at h; exact absurd h (by simp)
    | fail e =>
      rw [hev] at h
      simp only [Option.some.injEq] at h
      subst h
      constructor
      · constructor
        · intro hv; exact absurd hv (by simp)
        · rintro ⟨tr, htr⟩
          exact absurd htr (by simp)
      · intro e' he'
        simp only [Except.error.injEq, EvalErr.fail.injEq] at he'
        subst he'
        rfl
  | ok r =>
    rw [hev] at h
    simp only [Option.some.injEq] at h
    subst h
    refine ⟨?_, ?_⟩
    · constructor
      · intro hv
        cases hr : r.value with
        | vBool b =>
          refine ⟨r.trace, ?_⟩
          have hb : b = true := by
            simp only [hr] at hv
            exact hv
          subst hb
          congr 1
          cases r
          simp_all
        | vNull => simp [hr] at hv
        | vString s => simp [hr] at hv
        | vInt n => simp [hr] at hv
        | vNum x => simp [hr] at hv
        | vList xs => simp [hr] at hv
        | vMap m => simp [hr] at hv
      · rintro ⟨tr, htr⟩
        simp only [Except.ok.injEq] at htr
        subst htr
        rfl
    · intro e he
      exact absurd he (by simp)

/-- Closed instantiation of `evaluateCondition_bool_gate`: the general gate
applied to the literal `true`. -/
theorem evaluateCondition_bool_gate_witness :
    ∃ tr, Evaluate {} "true" = .ok ⟨vBool true, tr⟩ :=
  ((evaluateCondition_bool_gate.1 {} "true" ⟨"true", true, "true"⟩ rfl).1).mp rfl

/-! ## DFS lemmas for `topologicalSort` -/

theorem contains_iff_mem {l : List String} {x : String} :
    l.contains x = true ↔ x ∈ l := List.elem_iff

theorem visitGo_zero (w : Workflow) (n : String) (st : TopoSt) :
    visitGo 0 w n st = st := rfl

theorem visitGo_succ_eq (f : Nat) (w : Workflow) (n : String) (st : TopoSt) :
    visitGo (f + 1) w n st =
      if st.visited.contains n then st
      else
        let st1 : TopoSt := ⟨n :: st.visited, st.order⟩
        let st2 := (needsOf w n).foldl (fun s d => visitGo f w d s) st1
        ⟨st2.visited, st2.order ++ [n]⟩ := rfl

theorem visitGo_succ_visited (f : Nat) (w : Workflow) (n : String) (st : TopoSt)
    (h : st.visited.contains n = true) : visitGo (f + 1) w n st = st := by
  rw [visitGo_succ_eq, if_pos h]

theorem visitGo_succ_unvisited (f : Nat) (w : Workflow) (n : String) (st : TopoSt)
    (h : st.visited.contains n = false) :
    visitGo (f + 1) w n st =
      ⟨((needsOf w n).foldl (fun s d => visitGo f w d s) ⟨n :: st.visited, st.order⟩).visited,
       ((needsOf w n).foldl (fun s d => visitGo f w d s) ⟨n :: st.visited, st.order⟩).order ++ [n]⟩ := by
  rw [visitGo_succ_eq, if_neg (by rw [h]; exact Bool.false_ne_true)]

/-- The visited set only grows. -/
theorem visitGo_visited_subset :
    ∀ (fuel : Nat) (w : Workflow) (n : String) (st : TopoSt),
      st.visited ⊆ (visitGo fuel w n st).visited := by
  intro fuel
  induction fuel with
  | zero => intro w n st; rw [visitGo_zero]; exact fun x hx => hx
  | succ f ih =>
    intro w n st
    cases h : st.visited.contains n with
    | true => rw [visitGo_succ_visited f w n st h]; exact fun x hx => hx
    | false =>
      rw [visitGo_succ_unvisited f w n st h]
      have hfold : ∀ (ds : List String) (s : TopoSt),
          s.visited ⊆ (ds.foldl (fun s d => visitGo f w d s) s).visited := by
        intro ds
        induction ds with
        | nil => intro s; exact fun x hx => hx
        | cons d ds ihd =>
          intro s
          exact (ih w d s).trans (ihd (visitGo f w d s))
      intro x hx
      exact hfold _ ⟨n :: st.visited, st.order⟩ (List.mem_cons_of_mem _ hx)

/-- Fold version of `visitGo_visited_subset`. -/
theorem visitFold_visited_subset (f : Nat) (w : Workflow) :
    ∀ (ds : List String) (s : TopoSt),
      s.visited ⊆ (ds.foldl (fun s d => visitGo f w d s) s).visited := by
  intro ds
  induction ds with
  | nil => intro s; exact fun x hx => hx
  | cons d ds ihd =>
    intro s
    exact (visitGo_visited_subset f w d s).trans (ihd (visitGo f w d s))

/-- The emitted order only gets appended to. -/
theorem visitGo_order_isPrefix :
    ∀ (fuel : Nat) (w : Workflow) (n : String) (st : TopoSt),
      st.order.IsPrefix (visitGo fuel w n st).order := by
  intro fuel
  induction fuel with
  | zero => intro w n st; rw [visitGo_zero]
  | succ f ih =>
    intro w n st
    cases h : st.visited.contains n with
    | true => rw [visitGo_succ_visited f w n st h]
    | false =>
      rw [visitGo_succ_unvisited f w n st h]
      have hfold : ∀ (ds : List String) (s : TopoSt),
          s.order.IsPrefix (ds.foldl (fun s d => visitGo f w d s) s).order := by
        intro ds
        induction ds with
        | nil => intro s; exact List.prefix_refl _
        | cons d ds ihd =>
          intro s
          exact (ih w d s).trans (ihd (visitGo f w d s))
      exact (hfold _ ⟨n :: st.visited, st.order⟩).trans (List.prefix_append _ _)

/-- Fold version of `visitGo_order_isPrefix`. -/
theorem visitFold_order_isPrefix (f : Nat) (w : Workflow) :
    ∀ (ds : List String) (s : TopoSt),
      s.order.IsPrefix (ds.foldl (fun s d => visitGo f w d s) s).order := by
  intro ds
  induction ds with
  | nil => intro s; exact List.prefix_refl _
  | cons d ds ihd =>
    intro s
    exact (visitGo_order_isPrefix f w d s).trans (ihd (visitGo f w d s))

/-- A name newly appearing in the order was unvisited before the call. -/
theorem visitGo_order_new_unvisited :
    ∀ (fuel : Nat) (w : Workflow) (n : String) (st : TopoSt) (x : String),
      x ∈ (visitGo fuel w n st).order → x ∈ st.order ∨ x ∉ st.visited := by
  intro fuel
  induction fuel with
  | zero => intro w n st x hx; rw [visitGo_zero] at hx; exact Or.inl hx
  | succ f ih =>
    intro w n st x hx
    cases h : st.visited.contains n with
    | true => rw [visitGo_succ_visited f w n st h] at hx; exact Or.inl hx
    | false =>
      rw [visitGo_succ_unvisited f w n st h] at hx
      have hfold : ∀ (ds : List String) (s : TopoSt) (x : String),
          x ∈ (ds.foldl (fun s d => visitGo f w d s) s).order →
          x ∈ s.order ∨ x ∉ s.visited := by
        intro ds
        induction ds with
        | nil => intro s x hx; exact Or.inl hx
        | cons d ds ihd =>
          intro s x hx
          rcases ihd (visitGo f w d s) x hx with h1 | h1
          · rcases ih w d s x h1 with h2 | h2
            · exact Or.inl h2
            · exact Or.inr h2
          · right
            intro hv
            exact h1 (visitGo_visited_subset f w d s hv)
      rcases List.mem_append.mp hx with h1 | h1
      · rcases hfold _ ⟨n :: st.visited, st.order⟩ x h1 with h2 | h2
        · exact Or.inl h2
        · right
          intro hv
          exact h2 (List.mem_cons_of_mem _ hv)
      · have hxn : x = n := by simpa using h1
        subst hxn
        right
        intro hv
        rw [contains_iff_mem.mpr hv] at h
        exact Bool.false_ne_true h.symm

/-- Everything newly visited has also been emitted. -/
theorem visitGo_visited_to_order :
    ∀ (fuel : Nat) (w : Workflow) (n : String) (st : TopoSt) (x : String),
      x ∈ (visitGo fuel w n st).visited →
      x ∈ st.visited ∨ x ∈ (visitGo fuel w n st).order := by
  intro fuel
  induction fuel with
  | zero => intro w n st x hx; rw [visitGo_zero] at hx; exact Or.inl hx
  | succ f ih =>
    intro w n st x hx
    cases h : st.visited.contains n with
    | true => rw [visitGo_succ_visited f w n st h] at hx ⊢; exact Or.inl hx
    | false =>
      rw [visitGo_succ_unvisited f w n st h] at hx ⊢
      have hfold : ∀ (ds : List String) (s : TopoSt) (x : String),
          x ∈ (ds.foldl (fun s d => visitGo f w d s) s).visited →
          x ∈ s.visited ∨ x ∈ (ds.foldl (fun s d => visitGo f w d s) s).order := by
        intro ds
        induction ds with
        | nil => intro s x hx; exact Or.inl hx
        | cons d ds ihd =>
          intro s x hx
          rcases ihd (visitGo f w d s) x hx with h1 | h1
          · rcases ih w d s x h1 with h2 | h2
            · exact Or.inl h2
            · exact Or.inr ((visitFold_order_isPrefix f w ds (visitGo f w d s)).subset h2)
          · exact Or.inr h1
      rcases hfold _ ⟨n :: st.visited, st.order⟩ x hx with h1 | h1
      · rcases List.mem_cons.mp h1 with h2 | h2
        · subst h2; exact Or.inr (List.mem_append_right _ (by simp))
        · exact Or.inl h2
      · exact Or.inr (List.mem_append_left _ h1)

/-- Number of universe names not yet visited: the DFS recursion measure. -/
def measureV (w : Workflow) (visited : List String) : Nat :=
  ((univList w).filter (fun x => !visited.contains x)).length

theorem measureV_le (w : Workflow) (visited : List String) :
    measureV w visited ≤ (univList w).length :=
  List.length_filter_le _ _

theorem measureV_mono {w : Workflow} {v v' : List String} (h : v ⊆ v') :
    measureV w v' ≤ measureV w v := by
  apply List.Sublist.length_le
  apply List.monotone_filter_right
  intro a ha
  simp only [Bool.not_eq_true'] at ha ⊢
  cases hc : v.contains a with
  | false => rfl
  | true =>
    have hv' : v'.contains a = true := contains_iff_mem.mpr (h (contains_iff_mem.mp hc))
    rw [ha] at hv'
    exact absurd hv' Bool.false_ne_true

theorem measureV_mark_lt {w : Workflow} {visited : List String} {n : String}
    (hu : n ∈ univList w) (hv : n ∉ visited) :
    measureV w (n :: visited) < measureV w visited := by
  have hsub : List.Sublist ((univList w).filter (fun x => !(n :: visited).contains x))
      ((univList w).filter (fun x => !visited.contains x)) := by
    apply List.monotone_filter_right
    intro a ha
    simp only [Bool.not_eq_true'] at ha ⊢
    cases hc : visited.contains a with
    | false => rfl
    | true =>
      have hmem : (n :: visited).contains a = true :=
        contains_iff_mem.mpr (List.mem_cons_of_mem n (contains_iff_mem.mp hc))
      rw [ha] at hmem
      exact absurd hmem Bool.false_ne_true
  apply Nat.lt_of_le_of_ne hsub.length_le
  intro hlen
  have heq := hsub.eq_of_length hlen
  have hn_in : n ∈ (univList w).filter (fun x => !visited.contains x) := by
    apply List.mem_filter.mpr
    refine ⟨hu, ?_⟩
    simp only [Bool.not_eq_true']
    rcases hc : visited.contains n with _ | _
    · rfl
    · exact absurd (contains_iff_mem.mp hc) hv
  rw [← heq] at hn_in
  have := (List.mem_filter.mp hn_in).2
  rw [contains_iff_mem.mpr (List.mem_cons_self n visited)] at this
  simp at this

theorem goMapGet_mem {m : List (String × α)} {k : String} {v : α}
    (h : goMapGet m k = some v) : (k, v) ∈ m := by
  induction m with
  | nil => simp [goMapGet] at h
  | cons hd t ih =>
    obtain ⟨k', v'⟩ := hd
    by_cases hk : k' = k
    · subst hk
      have h' : v' = v := by simpa [goMapGet] using h
      subst h'
      exact List.mem_cons_self _ _
    · simp only [goMapGet, if_neg hk] at h
      exact List.mem_cons_of_mem _ (ih h)

theorem needsOf_subset_univ (w : Workflow) (n : String) :
    ∀ d ∈ needsOf w n, d ∈ univList w := by
  intro d hd
  unfold needsOf at hd
  cases hm : goMapGet w.jobs n with
  | none => rw [hm] at hd; simp at hd
  | some j =>
    rw [hm] at hd
    simp only [Option.getD_some] at hd
    have hmem : (n, j) ∈ w.jobs := goMapGet_mem hm
    unfold univList
    apply List.mem_append_right
    exact List.mem_join.mpr ⟨j.needs, List.mem_map.mpr ⟨(n, j), hmem, rfl⟩, hd⟩

theorem key_mem_univ {w : Workflow} {p : String × Job} (h : p ∈ w.jobs) :
    p.1 ∈ univList w :=
  List.mem_append_left _ (List.mem_map.mpr ⟨p, h, rfl⟩)

/-- Fuel irrelevance: with any fuel exceeding the number of unvisited
universe names, `visit` computes the same result — i.e. the Go recursion,
whose depth this fuel bounds, terminates even on cyclic graphs. -/
theorem visitGo_fuel_stable :
    ∀ (f₁ : Nat) (w : Workflow) (f₂ : Nat) (n : String) (st : TopoSt),
      n ∈ univList w →
      measureV w st.visited < f₁ → measureV w st.visited < f₂ →
      visitGo f₁ w n st = visitGo f₂ w n st := by
  intro f₁
  induction f₁ with
  | zero => intro w f₂ n st _ h1 _; exact absurd h1 (Nat.not_lt_zero _)
  | succ F ih =>
    intro w f₂ n st hn h1 h2
    cases f₂ with
    | zero => exact absurd h2 (Nat.not_lt_zero _)
    | succ G =>
      cases h : st.visited.contains n with
      | true => rw [visitGo_succ_visited F w n st h, visitGo_succ_visited G w n st h]
      | false =>
        rw [visitGo_succ_unvisited F w n st h, visitGo_succ_unvisited G w n st h]
        have hnv : n ∉ st.visited := fun hm => by
          rw [contains_iff_mem.mpr hm] at h
          exact Bool.false_ne_true h.symm
        have hmark : measureV w (n :: st.visited) < measureV w st.visited :=
          measureV_mark_lt hn hnv
        have hfold : ∀ (ds : List String), (∀ d ∈ ds, d ∈ univList w) →
            ∀ (s : TopoSt), (n :: st.visited) ⊆ s.visited →
            ds.foldl (fun s d => visitGo F w d s) s =
              ds.foldl (fun s d => visitGo G w d s) s := by
          intro ds
          induction ds with
          | nil => intro _ s _; rfl
          | cons d ds ihd =>
            intro hds s hsub
            have hd : d ∈ univList w := hds d (List.mem_cons_self _ _)
            have hms : measureV w s.visited ≤ measureV w (n :: st.visited) :=
              measureV_mono hsub
            have hlt1 : measureV w s.visited < F :=
              lt_of_le_of_lt hms (lt_of_lt_of_le hmark (Nat.lt_succ_iff.mp h1))
            have hlt2 : measureV w s.visited < G :=
              lt_of_le_of_lt hms (lt_of_lt_of_le hmark (Nat.lt_succ_iff.mp h2))
            have heq : visitGo F w d s = visitGo G w d s := ih w G d s hd hlt1 hlt2
            rw [List.foldl_cons, List.foldl_cons, ← heq]
            exact ihd (fun x hx => hds x (List.mem_cons_of_mem _ hx)) (visitGo F w d s)
              (hsub.trans (visitGo_visited_subset F w d s))
        rw [hfold (needsOf w n) (needsOf_subset_univ w n) ⟨n :: st.visited, st.order⟩
          (fun x hx => hx)]

/-- The whole sort stabilises at the fuel `topologicalSort` uses. -/
theorem topologicalSortFuel_stable (w : Workflow) (fuel : Nat)
    (h : (univList w).length < fuel) :
    topologicalSortFuel fuel w = topologicalSort w := by
  unfold topologicalSort topologicalSortFuel
  have hgen : ∀ (ps : List (String × Job)), (∀ p ∈ ps, p.1 ∈ univList w) → ∀ st : TopoSt,
      ps.foldl (fun st p => visitGo fuel w p.1 st) st =
        ps.foldl (fun st p => visitGo ((univList w).length + 1) w p.1 st) st := by
    intro ps
    induction ps with
    | nil => intro _ st; rfl
    | cons p ps ihp =>
      intro hps st
      have hp : p.1 ∈ univList w := hps p (List.mem_cons_self _ _)
      have hlt1 : measureV w st.visited < fuel := lt_of_le_of_lt (measureV_le w _) h
      have hlt2 : measureV w st.visited < (univList w).length + 1 :=
        Nat.lt_succ_of_le (measureV_le w _)
      have heq : visitGo fuel w p.1 st = visitGo ((univList w).length + 1) w p.1 st :=
        visitGo_fuel_stable fuel w _ p.1 st hp hlt1 hlt2
      rw [List.foldl_cons, List.foldl_cons, ← heq]
      exact ihp (fun x hx => hps x (List.mem_cons_of_mem _ hx)) (visitGo fuel w p.1 st)
  rw [hgen w.jobs (fun p hp => key_mem_univ hp) {}]

/-- Fold version of `visitGo_order_new_unvisited`. -/
theorem visitFold_order_new_unvisited (f : Nat) (w : Workflow) :
    ∀ (ds : List String) (s : TopoSt) (x : String),
      x ∈ (ds.foldl (fun s d => visitGo f w d s) s).order →
      x ∈ s.order ∨ x ∉ s.visited := by
  intro ds
  induction ds with
  | nil => intro s x hx; exact Or.inl hx
  | cons d ds ihd =>
    intro s x hx
    rcases ihd (visitGo f w d s) x hx with h1 | h1
    · rcases visitGo_order_new_unvisited f w d s x h1 with h2 | h2
      · exact Or.inl h2
      · exact Or.inr h2
    · right
      intro hv
      exact h1 (visitGo_visited_subset f w d s hv)

/-- The standing invariant of the DFS state: the order has no duplicates
and everything emitted is marked visited. -/
def TopoInv (st : TopoSt) : Prop := st.order.Nodup ∧ st.order ⊆ st.visited

theorem visitGo_inv :
    ∀ (fuel : Nat) (w : Workflow) (n : String) (st : TopoSt),
      TopoInv st → TopoInv (visitGo fuel w n st) := by
  intro fuel
  induction fuel with
  | zero => intro w n st h; rw [visitGo_zero]; exact h
  | succ f ih =>
    intro w n st hinv
    cases h : st.visited.contains n with
    | true => rw [visitGo_succ_visited f w n st h]; exact hinv
    | false =>
      rw [visitGo_succ_unvisited f w n st h]
      have hnv : n ∉ st.visited := fun hm => by
        rw [contains_iff_mem.mpr hm] at h
        exact Bool.false_ne_true h.symm
      have hinv1 : TopoInv ⟨n :: st.visited, st.order⟩ :=
        ⟨hinv.1, fun x hx => List.mem_cons_of_mem _ (hinv.2 hx)⟩
      have hfold : ∀ (ds : List String) (s : TopoSt),
          TopoInv s → TopoInv (ds.foldl (fun s d => visitGo f w d s) s) := by
        intro ds
        induction ds with
        | nil => intro s hs; exact hs
        | cons d ds ihd =>
          intro s hs
          exact ihd (visitGo f w d s) (ih w d s hs)
      have hst2 := hfold (needsOf w n) ⟨n :: st.visited, st.order⟩ hinv1
      have hnotin : n ∉ ((needsOf w n).foldl (fun s d => visitGo f w d s)
          ⟨n :: st.visited, st.order⟩).order := by
        intro hmem
        rcases visitFold_order_new_unvisited f w (needsOf w n)
            ⟨n :: st.visited, st.order⟩ n hmem with h1 | h1
        · exact hnv (hinv.2 h1)
        · exact h1 (List.mem_cons_self _ _)
      refine ⟨?_, ?_⟩
      · simpa [List.nodup_append] using ⟨hst2.1, hnotin⟩
      · intro x hx
        rcases List.mem_append.mp hx with h1 | h1
        · exact hst2.2 h1
        · have hxn : x = n := by simpa using h1
          rw [hxn]
          exact visitFold_visited_subset f w (needsOf w n)
            ⟨n :: st.visited, st.order⟩ (List.mem_cons_self _ _)

/-- The emitted order of `topologicalSort` never repeats a job name,
whatever the workflow (cyclic graphs included). -/
theorem topologicalSort_nodup (w : Workflow) : (topologicalSort w).Nodup := by
  unfold topologicalSort topologicalSortFuel
  have hgen : ∀ (ps : List (String × Job)) (st : TopoSt),
      TopoInv st →
      TopoInv (ps.foldl (fun st p => visitGo ((univList w).length + 1) w p.1 st) st) := by
    intro ps
    induction ps with
    | nil => intro st h; exact h
    | cons p ps ihp =>
      intro st h
      exact ihp _ (visitGo_inv _ w p.1 st h)
  exact (hgen w.jobs {} ⟨List.nodup_nil, fun x hx => absurd hx (List.not_mem_nil x)⟩).1

/-- A list of names is topologically ordered for `w`: whatever appears at
position `k` has all its dependencies at earlier positions. -/
def GoodOrd (w : Workflow) (l : List String) : Prop :=
  ∀ (k : Nat) (j : String), l.get? k = some j → ∀ d ∈ needsOf w j, ∃ i, i < k ∧ l.get? i = some d

/-- Main DFS correctness step: under a rank function witnessing acyclicity,
`visit` preserves topological ordering of the emitted list, never grows the
set of visited-but-unemitted names (the recursion stack), and emits its
argument. -/
theorem visitGo_good (w : Workflow) (rank : String → Nat)
    (hrank : ∀ j d, d ∈ needsOf w j → rank d < rank j) :
    ∀ (fuel : Nat) (n : String) (st : TopoSt),
      n ∈ univList w →
      measureV w st.visited < fuel →
      GoodOrd w st.order →
      (∀ v ∈ st.visited, v ∉ st.order → rank n < rank v) →
      GoodOrd w (visitGo fuel w n st).order ∧
      (∀ v ∈ (visitGo fuel w n st).visited, v ∉ (visitGo fuel w n st).order →
        v ∈ st.visited ∧ v ∉ st.order) ∧
      n ∈ (visitGo fuel w n st).order := by
  intro fuel
  induction fuel with
  | zero => intro n st _ h1 _ _; exact absurd h1 (Nat.not_lt_zero _)
  | succ F ih =>
    intro n st hn hmea hgood hpend
    cases h : st.visited.contains n with
    | true =>
      rw [visitGo_succ_visited F w n st h]
      have hnvis : n ∈ st.visited := contains_iff_mem.mp h
      have hno : n ∈ st.order := by
        by_contra hno
        exact absurd (hpend n hnvis hno) (lt_irrefl _)
      exact ⟨hgood, fun v hv hvo => ⟨hv, hvo⟩, hno⟩
    | false =>
      rw [visitGo_succ_unvisited F w n st h]
      have hnv : n ∉ st.visited := fun hm => by
        rw [contains_iff_mem.mpr hm] at h
        exact Bool.false_ne_true h.symm
      have hmark : measureV w (n :: st.visited) < measureV w st.visited :=
        measureV_mark_lt hn hnv
      have hfold : ∀ (ds : List String), (∀ d ∈ ds, d ∈ needsOf w n) →
          ∀ (s : TopoSt),
            (n :: st.visited) ⊆ s.visited →
            GoodOrd w s.order →
            (∀ v ∈ s.visited, v ∉ s.order → (v ∈ st.visited ∧ v ∉ st.order) ∨ v = n) →
            GoodOrd w (ds.foldl (fun s d => visitGo F w d s) s).order ∧
            (n :: st.visited) ⊆ (ds.foldl (fun s d => visitGo F w d s) s).visited ∧
            (∀ v ∈ (ds.foldl (fun s d => visitGo F w d s) s).visited,
               v ∉ (ds.foldl (fun s d => visitGo F w d s) s).order →
               (v ∈ st.visited ∧ v ∉ st.order) ∨ v = n) ∧
            (∀ d ∈ ds, d ∈ (ds.foldl (fun s d => visitGo F w d s) s).order) ∧
            (∀ x ∈ s.order, x ∈ (ds.foldl (fun s d => visitGo F w d s) s).order) := by
        intro ds
        induction ds with
        | nil =>
          intro _ s hsub hg hp
          exact ⟨hg, hsub, hp, fun d hd => absurd hd (List.not_mem_nil d), fun x hx => hx⟩
        | cons d ds ihd =>
          intro hds s hsub hg hp
          have hdn : d ∈ needsOf w n := hds d (List.mem_cons_self _ _)
          have hdu : d ∈ univList w := needsOf_subset_univ w n d hdn
          have hmes : measureV w s.visited < F :=
            lt_of_lt_of_le
              (lt_of_le_of_lt (measureV_mono hsub) hmark)
              (Nat.lt_succ_iff.mp hmea)
          have hpd : ∀ v ∈ s.visited, v ∉ s.order → rank d < rank v := by
            intro v hv hvo
            rcases hp v hv hvo with ⟨hv1, hv2⟩ | he
            · exact lt_trans (hrank n d hdn) (hpend v hv1 hv2)
            · rw [he]; exact hrank n d hdn
          obtain ⟨hg₀, hp₀raw, hd₀⟩ := ih d s hdu hmes hg hpd
          have hsub₀ : (n :: st.visited) ⊆ (visitGo F w d s).visited :=
            hsub.trans (visitGo_visited_subset F w d s)
          have hp₀ : ∀ v ∈ (visitGo F w d s).visited, v ∉ (visitGo F w d s).order →
              (v ∈ st.visited ∧ v ∉ st.order) ∨ v = n := by
            intro v hv hvo
            obtain ⟨hv1, hv2⟩ := hp₀raw v hv hvo
            exact hp v hv1 hv2
          obtain ⟨rg, rsub, rp, rall, rmono⟩ :=
            ihd (fun x hx => hds x (List.mem_cons_of_mem _ hx)) (visitGo F w d s) hsub₀ hg₀ hp₀
          rw [List.foldl_cons]
          refine ⟨rg, rsub, rp, ?_, ?_⟩
          · intro d' hd'
            rcases List.mem_cons.mp hd' with rfl | hd'
            · exact rmono d' hd₀
            · exact rall d' hd'
          · intro x hx
            exact rmono x ((visitGo_order_isPrefix F w d s).subset hx)
      have hp_init : ∀ v ∈ (n :: st.visited), v ∉ st.order →
          (v ∈ st.visited ∧ v ∉ st.order) ∨ v = n := by
        intro v hv hvo
        rcases List.mem_cons.mp hv with rfl | hv
        · exact Or.inr rfl
        · exact Or.inl ⟨hv, hvo⟩
      obtain ⟨hG2, hsub2, hp2, hall2, hmono2⟩ :=
        hfold (needsOf w n) (fun d hd => hd) ⟨n :: st.visited, st.order⟩
          (fun x hx => hx) hgood hp_init
      refine ⟨?_, ?_, ?_⟩
      · intro k j hk d hd
        rcases Nat.lt_trichotomy k ((needsOf w n).foldl (fun s d => visitGo F w d s)
            ⟨n :: st.visited, st.order⟩).order.length with hlt | heq | hgt
        · rw [List.get?_append hlt] at hk
          obtain ⟨i, hik, hi⟩ := hG2 k j hk d hd
          exact ⟨i, hik, by rw [List.get?_append (lt_trans hik hlt)]; exact hi⟩
        · rw [heq, List.get?_concat_length] at hk
          have hj : j = n := by simpa using hk.symm
          rw [hj] at hd
          have hdo : d ∈ ((needsOf w n).foldl (fun s d => visitGo F w d s)
              ⟨n :: st.visited, st.order⟩).order := hall2 d hd
          obtain ⟨i, hi⟩ := List.mem_iff_get?.mp hdo
          have hilen : i < ((needsOf w n).foldl (fun s d => visitGo F w d s)
              ⟨n :: st.visited, st.order⟩).order.length := by
            by_contra hge
            rw [List.get?_eq_none.mpr (Nat.le_of_not_lt hge)] at hi
            cases hi
          refine ⟨i, ?_, ?_⟩
          · omega
          · rw [List.get?_append hilen]; exact hi
        · have hnone : (((needsOf w n).foldl (fun s d => visitGo F w d s)
              ⟨n :: st.visited, st.order⟩).order ++ [n]).get? k = none := by
            apply List.get?_eq_none.mpr
            simp only [List.length_append, List.length_singleton]
            omega
          rw [hnone] at hk
          cases hk
      · intro v hv hvo
        have hvo' : v ∉ ((needsOf w n).foldl (fun s d => visitGo F w d s)
            ⟨n :: st.visited, st.order⟩).order := fun hm => hvo (List.mem_append_left _ hm)
        have hvn : v ≠ n := fun he => hvo (by rw [he]; exact List.mem_append_right _ (by simp))
        rcases hp2 v hv hvo' with hl | he
        · exact hl
        · exact absurd he hvn
      · exact List.mem_append_right _ (by simp)

/-- Acyclicity of the job dependency graph, characterised by a rank
function: a finite directed graph has no cycle exactly when its vertices
can be ranked with every edge strictly decreasing (for `needs` edges:
every dependency ranks below its dependent).  The rank form is the
convenient induction handle. -/
def Acyclic (w : Workflow) : Prop :=
  ∃ rank : String → Nat, ∀ j d, d ∈ needsOf w j → rank d < rank j

/-- For an acyclic workflow the whole emitted sort is topologically
ordered. -/
theorem topologicalSort_good (w : Workflow) (hac : Acyclic w) :
    GoodOrd w (topologicalSort w) := by
  obtain ⟨rank, hrank⟩ := hac
  unfold topologicalSort topologicalSortFuel
  have hgen : ∀ (ps : List (String × Job)), (∀ p ∈ ps, p.1 ∈ univList w) →
      ∀ st : TopoSt, GoodOrd w st.order → (∀ v ∈ st.visited, v ∈ st.order) →
      GoodOrd w ((ps.foldl (fun st p => visitGo ((univList w).length + 1) w p.1 st) st)).order ∧
      (∀ v ∈ (ps.foldl (fun st p => visitGo ((univList w).length + 1) w p.1 st) st).visited,
         v ∈ (ps.foldl (fun st p => visitGo ((univList w).length + 1) w p.1 st) st).order) := by
    intro ps
    induction ps with
    | nil => intro _ st hg hall; exact ⟨hg, hall⟩
    | cons p ps ihp =>
      intro hps st hg hall
      have hp : p.1 ∈ univList w := hps p (List.mem_cons_self _ _)
      have hfuel : measureV w st.visited < (univList w).length + 1 :=
        Nat.lt_succ_of_le (measureV_le w _)
      have hpend : ∀ v ∈ st.visited, v ∉ st.order → rank p.1 < rank v := by
        intro v hv hvo
        exact absurd (hall v hv) hvo
      obtain ⟨hg', hp', _⟩ :=
        visitGo_good w rank hrank ((univList w).length + 1) p.1 st hp hfuel hg hpend
      have hall' : ∀ v ∈ (visitGo ((univList w).length + 1) w p.1 st).visited,
          v ∈ (visitGo ((univList w).length + 1) w p.1 st).order := by
        intro v hv
        by_contra hvo
        obtain ⟨hv1, hv2⟩ := hp' v hv hvo
        exact hv2 (hall v hv1)
      exact ihp (fun x hx => hps x (List.mem_cons_of_mem _ hx)) _ hg' hall'
  have hempty : GoodOrd w (TopoSt.order {}) := by
    intro k j hk
    simp [TopoSt.order] at hk
  exact (hgen w.jobs (fun p hp => key_mem_univ hp) {} hempty
    (by intro v hv; simp [TopoSt.visited] at hv)).1

/-! ## Analyzer bridge lemmas -/

theorem analyzeJob_fields {c : Context} {m : List (String × JobContext)}
    {n : String} {job : Job} {r : JobResult} (h : analyzeJob c m n job = some r) :
    r.name = n ∧ r.needs = job.needs := by
  unfold analyzeJob at h
  dsimp only at h
  split at h
  · cases h
  · split at h
    · cases h
    · injection h with h
      subst h
      exact ⟨rfl, rfl⟩

theorem analyzeJobCond_unsat {effCtx : Context} {s0 ifc : String}
    {cond : Option ConditionResult} {wr : Bool} {s1 : String}
    (h : analyzeJobCond effCtx false s0 ifc = some (cond, wr, s1)) : wr = false := by
  unfold analyzeJobCond at h
  by_cases hif : ifc ≠ ""
  · rw [if_pos hif] at h
    cases hev : evaluateCondition effCtx ifc with
    | none => rw [hev] at h; cases h
    | some cr =>
      rw [hev] at h
      dsimp only at h
      cases hcv : cr.value with
      | false =>
        rw [hcv] at h
        simp only [Bool.not_false, if_true, Option.some.injEq, Prod.mk.injEq] at h
        exact h.2.1.symm
      | true =>
        rw [hcv] at h
        simp only [Bool.not_true, Bool.false_eq_true, if_false, Option.some.injEq,
          Prod.mk.injEq] at h
        exact h.2.1.symm
  · rw [if_neg hif] at h
    simp only [Option.some.injEq, Prod.mk.injEq] at h
    exact h.2.1.symm

theorem analyzeJob_unsat {c : Context} {m : List (String × JobContext)}
    {n : String} {job : Job} {r : JobResult} {dep : String}
    (hd : firstUnsatisfied m job.needs = some dep)
    (h : analyzeJob c m n job = some r) :
    r.wouldRun = false ∧ r.skipReason ≠ "" := by
  unfold analyzeJob at h
  dsimp only at h
  rw [hd] at h
  simp only [Option.isNone_some] at h
  cases hcp : analyzeJobCond { c with jobs := m } false
      ("dependency " ++ squote ++ dep ++ squote ++ " was skipped") job.ifCond with
  | none => rw [hcp] at h; cases h
  | some t =>
    obtain ⟨cond, wr, s1⟩ := t
    rw [hcp] at h
    have hwr : wr = false := analyzeJobCond_unsat hcp
    cases hsl : analyzeStepsList { c with jobs := m } job.steps with
    | none => rw [hsl] at h; cases h
    | some srs =>
      rw [hsl] at h
      injection h with h
      subst h
      refine ⟨hwr, ?_⟩
      by_cases hs1 : s1 = ""
      · simp only [JobResult.skipReason, hs1, Bool.not_false, Bool.true_and, if_pos]
        decide
      · simpa [hs1] using hs1

theorem firstUnsatisfied_some {m : List (String × JobContext)} :
    ∀ (deps : List String) (d : String), d ∈ deps →
      ∀ jc : JobContext, goMapGet m d = some jc → jc.status ≠ "success" →
      ∃ d', firstUnsatisfied m deps = some d' := by
  intro deps
  induction deps with
  | nil => intro d hd; cases hd
  | cons d0 ds ih =>
    intro d hd jc hjc hst
    cases h0 : goMapGet m d0 with
    | some jc0 =>
      by_cases hs : jc0.status = "success"
      · rcases List.mem_cons.mp hd with he | hd'
        · rw [he, h0] at hjc
          injection hjc with hjc
          rw [hjc] at hs
          exact absurd hs hst
        · obtain ⟨d', hd'⟩ := ih d hd' jc hjc hst
          exact ⟨d', by simp [firstUnsatisfied, h0, hs, hd']⟩
      · exact ⟨d0, by simp [firstUnsatisfied, h0, hs]⟩
    | none =>
      rcases List.mem_cons.mp hd with he | hd'
      · rw [he, h0] at hjc; cases hjc
      · obtain ⟨d', hd'⟩ := ih d hd' jc hjc hst
        exact ⟨d', by simp [firstUnsatisfied, h0, hd']⟩

theorem analyzeLoop_get (c : Context) (w : Workflow) :
    ∀ (order : List String) (m : List (String × JobContext)) (rs : List JobResult)
      (fin : List (String × JobContext)),
      analyzeLoop c w order m = some (rs, fin) →
      rs.length = order.length ∧
      ∀ k jr, rs.get? k = some jr →
        order.get? k = some jr.name ∧ jr.needs = needsOf w jr.name := by
  intro order
  induction order with
  | nil =>
    intro m rs fin h
    simp only [analyzeLoop, Option.some.injEq, Prod.mk.injEq] at h
    obtain ⟨h1, _⟩ := h
    subst h1
    exact ⟨rfl, by intro k jr hk; simp at hk⟩
  | cons n rest ih =>
    intro m rs fin h
    simp only [analyzeLoop] at h
    cases hJ : analyzeJob c m n ((goMapGet w.jobs n).getD {}) with
    | none => rw [hJ] at h; cases h
    | some jr =>
      rw [hJ] at h
      dsimp only at h
      cases hL : analyzeLoop c w rest
          (goMapSet m n { status := if jr.wouldRun then "success" else "skipped" }) with
      | none => rw [hL] at h; cases h
      | some p =>
        obtain ⟨rs', fin'⟩ := p
        rw [hL] at h
        simp only [Option.some.injEq, Prod.mk.injEq] at h
        obtain ⟨h1, _⟩ := h
        subst h1
        obtain ⟨hlen, hget⟩ := ih _ rs' fin' hL
        obtain ⟨hname, hneeds⟩ := analyzeJob_fields hJ
        refine ⟨by simpa using hlen, ?_⟩
        intro k jr' hk
        cases k with
        | zero =>
          simp only [List.get?_cons_zero, Option.some.injEq] at hk
          subst hk
          refine ⟨by simp [hname], ?_⟩
          rw [hname]
          exact hneeds
        | succ k' =>
          simp only [List.get?_cons_succ] at hk ⊢
          exact hget k' jr' hk

theorem analyzeLoop_dep_skipped (c : Context) (w : Workflow) :
    ∀ (order : List String) (dn : String), dn ∉ order →
      ∀ (m : List (String × JobContext)) (jc : JobContext),
        goMapGet m dn = some jc → jc.status ≠ "success" →
      ∀ rs fin, analyzeLoop c w order m = some (rs, fin) →
      ∀ j jr, rs.get? j = some jr → dn ∈ jr.needs →
        jr.wouldRun = false ∧ jr.skipReason ≠ "" := by
  intro order
  induction order with
  | nil =>
    intro dn _ m jc _ _ rs fin h j jr hj _
    simp only [analyzeLoop, Option.some.injEq, Prod.mk.injEq] at h
    obtain ⟨h1, _⟩ := h
    subst h1
    simp at hj
  | cons n rest ih =>
    intro dn hdn m jc hjc hst rs fin h j jr hj hmem
    simp only [analyzeLoop] at h
    cases hJ : analyzeJob c m n ((goMapGet w.jobs n).getD {}) with
    | none => rw [hJ] at h; cases h
    | some jr0 =>
      rw [hJ] at h
      dsimp only at h
      cases hL : analyzeLoop c w rest
          (goMapSet m n { status := if jr0.wouldRun then "success" else "skipped" }) with
      | none => rw [hL] at h; cases h
      | some p =>
        obtain ⟨rs', fin'⟩ := p
        rw [hL] at h
        simp only [Option.some.injEq, Prod.mk.injEq] at h
        obtain ⟨h1, _⟩ := h
        subst h1
        cases j with
        | zero =>
          simp only [List.get?_cons_zero, Option.some.injEq] at hj
          subst hj
          obtain ⟨_, hneeds⟩ := analyzeJob_fields hJ
          rw [hneeds] at hmem
          obtain ⟨d', hd'⟩ := firstUnsatisfied_some _ dn hmem jc hjc hst
          exact analyzeJob_unsat hd' hJ
        | succ j' =>
          simp only [List.get?_cons_succ] at hj
          have hne : n ≠ dn := fun he => hdn (he ▸ List.mem_cons_self _ _)
          have hjc' : goMapGet (goMapSet m n
              { status := if jr0.wouldRun then "success" else "skipped" }) dn = some jc := by
            rw [goMapGet_goMapSet_ne m n dn _ hne]
            exact hjc
          exact ih dn (fun hm => hdn (List.mem_cons_of_mem _ hm)) _ jc hjc' hst
            rs' fin' hL j' jr hj hmem

theorem analyzeLoop_skip_propagation (c : Context) (w : Workflow) :
    ∀ (order : List String), order.Nodup →
      ∀ (m : List (String × JobContext)) rs fin,
      analyzeLoop c w order m = some (rs, fin) →
      ∀ k i kr ir, k < i → rs.get? k = some kr → rs.get? i = some ir →
        kr.wouldRun = false → kr.name ∈ ir.needs →
        ir.wouldRun = false ∧ ir.skipReason ≠ "" := by
  intro order
  induction order with
  | nil =>
    intro _ m rs fin h k i kr ir _ hk _ _ _
    simp only [analyzeLoop, Option.some.injEq, Prod.mk.injEq] at h
    obtain ⟨h1, _⟩ := h
    subst h1
    simp at hk
  | cons n rest ih =>
    intro hnd m rs fin h k i kr ir hki hk hi hwr hmem
    simp only [analyzeLoop] at h
    cases hJ : analyzeJob c m n ((goMapGet w.jobs n).getD {}) with
    | none => rw [hJ] at h; cases h
    | some jr0 =>
      rw [hJ] at h
      dsimp only at h
      cases hL : analyzeLoop c w rest
          (goMapSet m n { status := if jr0.wouldRun then "success" else "skipped" }) with
      | none => rw [hL] at h; cases h
      | some p =>
        obtain ⟨rs', fin'⟩ := p
        rw [hL] at h
        simp only [Option.some.injEq, Prod.mk.injEq] at h
        obtain ⟨h1, _⟩ := h
        subst h1
        cases k with
        | zero =>
          simp only [List.get?_cons_zero, Option.some.injEq] at hk
          rw [← hk] at hwr hmem
          cases i with
          | zero => exact absurd hki (lt_irrefl _)
          | succ i' =>
            simp only [List.get?_cons_succ] at hi
            obtain ⟨hname, _⟩ := analyzeJob_fields hJ
            simp only [hwr, Bool.false_eq_true, if_false] at hL
            have hdn : jr0.name ∉ rest := by
              rw [hname]
              exact (List.nodup_cons.mp hnd).1
            have hjc : goMapGet (goMapSet m n { status := "skipped" }) jr0.name =
                some { status := "skipped" } := by
              rw [hname]
              exact goMapGet_goMapSet_self m n _
            exact analyzeLoop_dep_skipped c w rest jr0.name hdn _
              { status := "skipped" } hjc (by decide)
              rs' fin' hL i' ir hi hmem
        | succ k' =>
          cases i with
          | zero => exact absurd hki (by omega)
          | succ i' =>
            simp only [List.get?_cons_succ] at hk hi
            exact ih (List.nodup_cons.mp hnd).2 _ rs' fin' hL k' i' kr ir
              (Nat.succ_lt_succ_iff.mp hki) hk hi hwr hmem

/-! ## Claim theorems for the Analyzer -/

/-- C1 counterexample: the claim says `Analyze` fails with an explicit,
descriptive error on a cyclic job graph.  On the two-job cycle `a ↔ b`,
`Analyze` terminates and returns a perfectly normal `AnalysisResult` —
there is no error channel in its signature at all, no cycle is reported,
and (both dependencies being unrecorded at the time each job is examined)
both jobs are even marked would-run. -/
theorem analyze_cycle_counterexample :
    Analyze wCyc {} =
      some { workflowName := "cyc", trigger := "",
             jobs := [
               { name := "b", runsOn := "[]", needs := ["a"], condition := none,
                 wouldRun := true, skipReason := "", steps := [] },
               { name := "a", runsOn := "[]", needs := ["b"], condition := none,
                 wouldRun := true, skipReason := "", steps := [] }],
             ctxJobs := [("b", { status := "success" }), ("a", { status := "success" })] } := rfl

/-- C1 amended: on a cyclic job graph `Analyze` does terminate — the DFS
marks each name visited before recursing, so its depth is bounded by the
name universe and the recursion stabilises at the fuel modelling it — but
it does not detect the cycle and cannot fail: it returns a normal
`AnalysisResult` (with a duplicate-free job order) rather than an
error. -/
theorem analyze_cycle_terminates_without_error :
    (∀ (w : Workflow) (fuel : Nat), (univList w).length < fuel →
        topologicalSortFuel fuel w = topologicalSort w) ∧
    (∀ w : Workflow, (topologicalSort w).Nodup) ∧
    (∃ res, Analyze wCyc {} = some res ∧ res.jobs.length = 2) := by
  refine ⟨fun w fuel h => topologicalSortFuel_stable w fuel h, topologicalSort_nodup, ?_⟩
  exact ⟨{ workflowName := "cyc", trigger := "",
           jobs := [
             { name := "b", runsOn := "[]", needs := ["a"], condition := none,
               wouldRun := true, skipReason := "", steps := [] },
             { name := "a", runsOn := "[]", needs := ["b"], condition := none,
               wouldRun := true, skipReason := "", steps := [] }],
           ctxJobs := [("b", { status := "success" }), ("a", { status := "success" })] },
         rfl, rfl⟩

/-- Closed instantiation of `analyze_cycle_terminates_without_error`: the
sort of the cyclic workflow already stabilises at fuel 5. -/
theorem analyze_cycle_terminates_without_error_witness :
    topologicalSortFuel 5 wCyc = topologicalSort wCyc :=
  analyze_cycle_terminates_without_error.1 wCyc 5 (by decide)

/-- C2: for an acyclic workflow, every job in the emitted analysis comes
after all of its dependencies: whatever sits at position `k` has each of
its `needs` at some earlier position. -/
theorem analyze_topological_order (w : Workflow) (c : Context) (hac : Acyclic w)
    (res : AnalysisResult) (h : Analyze w c = some res) :
    ∀ k jr d, res.jobs.get? k = some jr → d ∈ jr.needs →
      ∃ i dr, i < k ∧ res.jobs.get? i = some dr ∧ dr.name = d := by
  unfold Analyze at h
  dsimp only at h
  cases hL : analyzeLoop c w (topologicalSort w) c.jobs with
  | none => rw [hL] at h; cases h
  | some p =>
    obtain ⟨jobs, finJobs⟩ := p
    rw [hL] at h
    dsimp only at h
    injection h with h
    subst h
    intro k jr d hk hd
    obtain ⟨hlen, hget⟩ := analyzeLoop_get c w _ _ _ _ hL
    obtain ⟨hnm, hneeds⟩ := hget k jr hk
    rw [hneeds] at hd
    obtain ⟨i, hik, hi⟩ := topologicalSort_good w hac k jr.name hnm d hd
    have hkb : k < jobs.length := by
      by_contra hge
      rw [List.get?_eq_none.mpr (Nat.le_of_not_lt hge)] at hk
      cases hk
    have hib : i < jobs.length := lt_trans hik hkb
    obtain ⟨dr, hdr⟩ : ∃ dr, jobs.get? i = some dr :=
      ⟨jobs.get ⟨i, hib⟩, List.get?_eq_get hib⟩
    obtain ⟨hnm', _⟩ := hget i dr hdr
    rw [hi] at hnm'
    refine ⟨i, dr, hik, hdr, ?_⟩
    injection hnm' with he
    exact he.symm

/-- The straight-line two-job workflow `b needs a`. -/
def wLin : Workflow :=
  { name := "lin", jobs := [("a", {}), ("b", { needs := ["a"] })] }

theorem wLin_acyclic : Acyclic wLin := by
  refine ⟨fun s => if s = "a" then 0 else 1, ?_⟩
  intro j d hd
  by_cases hj : j = "b"
  · subst hj
    have : d = "a" := by simpa [needsOf, goMapGet, wLin] using hd
    subst this
    decide
  · have hempty : needsOf wLin j = [] := by
      by_cases hja : j = "a"
      · subst hja; rfl
      · have h1 : ¬ ("a" : String) = j := fun h => hja h.symm
        have h2 : ¬ ("b" : String) = j := fun h => hj h.symm
        simp [needsOf, goMapGet, wLin, h1, h2]
    rw [hempty] at hd
    cases hd

/-- Closed instantiation of `analyze_topological_order`: in the analysis of
`wLin`, job `b` (position 1) is preceded by its dependency `a`. -/
theorem analyze_topological_order_witness :
    ∃ i dr, i < 1 ∧
      ([{ name := "a", runsOn := "[]", needs := [], condition := none,
          wouldRun := true, skipReason := "", steps := [] },
        { name := "b", runsOn := "[]", needs := ["a"], condition := none,
          wouldRun := true, skipReason := "", steps := [] }] : List JobResult).get? i = some dr ∧
      dr.name = "a" :=
  analyze_topological_order wLin {} wLin_acyclic
    { workflowName := "lin", trigger := "",
      jobs := [
        { name := "a", runsOn := "[]", needs := [], condition := none,
          wouldRun := true, skipReason := "", steps := [] },
        { name := "b", runsOn := "[]", needs := ["a"], condition := none,
          wouldRun := true, skipReason := "", steps := [] }],
      ctxJobs := [("a", { status := "success" }), ("b", { status := "success" })] }
    rfl 1
    { name := "b", runsOn := "[]", needs := ["a"], condition := none,
      wouldRun := true, skipReason := "", steps := [] }
    "a" rfl (by decide)

/-- C5: (1) each job's status is recorded into the context before any later
job is analyzed, so a later job that names an earlier not-would-run job in
its `needs` sees a non-`success` status and is itself marked not-would-run
with a non-empty skip reason; (2) at the single-job level, any dependency
whose recorded status is not `success` forces not-would-run with a
non-empty skip reason. -/
theorem analyze_status_recording :
    (∀ (w : Workflow) (c : Context) (res : AnalysisResult), Analyze w c = some res →
       ∀ k i kr ir, k < i → res.jobs.get? k = some kr → res.jobs.get? i = some ir →
         kr.wouldRun = false → kr.name ∈ ir.needs →
         ir.wouldRun = false ∧ ir.skipReason ≠ "") ∧
    (∀ (c : Context) (m : List (String × JobContext)) (n : String) (job : Job)
       (r : JobResult) (dep : String) (jc : JobContext),
       analyzeJob c m n job = some r → dep ∈ job.needs →
       goMapGet m dep = some jc → jc.status ≠ "success" →
       r.wouldRun = false ∧ r.skipReason ≠ "") := by
  constructor
  · intro w c res h k i kr ir hki hk hi hwr hmem
    unfold Analyze at h
    dsimp only at h
    cases hL : analyzeLoop c w (topologicalSort w) c.jobs with
    | none => rw [hL] at h; cases h
    | some p =>
      obtain ⟨jobs, finJobs⟩ := p
      rw [hL] at h
      dsimp only at h
      injection h with h
      subst h
      exact analyzeLoop_skip_propagation c w (topologicalSort w)
        (topologicalSort_nodup w) c.jobs jobs finJobs hL k i kr ir hki hk hi hwr hmem
  · intro c m n job r dep jc hJ hdep hjc hst
    obtain ⟨d', hd'⟩ := firstUnsatisfied_some job.needs dep hdep jc hjc hst
    exact analyzeJob_unsat hd' hJ

/-- The workflow where `a` is disabled by `if: false` and `b` needs `a`. -/
def wSkip : Workflow :=
  { name := "skip", jobs := [("a", { ifCond := "false" }), ("b", { needs := ["a"] })] }

/-- Closed instantiation of `analyze_status_recording`: in the analysis of
`wSkip`, `a` is skipped by its condition, its `skipped` status is recorded
before `b` is analyzed, and `b` is therefore not-would-run with a non-empty
reason. -/
theorem analyze_status_recording_witness :
    ({ name := "b", runsOn := "[]", needs := ["a"], condition := none,
       wouldRun := false, skipReason := "dependency " ++ squote ++ "a" ++ squote ++ " was skipped",
       steps := [] } : JobResult).wouldRun = false ∧
    ({ name := "b", runsOn := "[]", needs := ["a"], condition := none,
       wouldRun := false, skipReason := "dependency " ++ squote ++ "a" ++ squote ++ " was skipped",
       steps := [] } : JobResult).skipReason ≠ "" :=
  analyze_status_recording.1 wSkip {}
    { workflowName := "skip", trigger := "",
      jobs := [
        { name := "a", runsOn := "[]", needs := [], condition :=
            some { expression := "false", value := false, trace := "false" },
          wouldRun := false, skipReason := "condition evaluated to false", steps := [] },
        { name := "b", runsOn := "[]", needs := ["a"], condition := none,
          wouldRun := false,
          skipReason := "dependency " ++ squote ++ "a" ++ squote ++ " was skipped",
          steps := [] }],
      ctxJobs := [("a", { status := "skipped" }), ("b", { status := "skipped" })] }
    rfl 0 1
    { name := "a", runsOn := "[]", needs := [], condition :=
        some { expression := "false", value := false, trace := "false" },
      wouldRun := false, skipReason := "condition evaluated to false", steps := [] }
    { name := "b", runsOn := "[]", needs := ["a"], condition := none,
      wouldRun := false,
      skipReason := "dependency " ++ squote ++ "a" ++ squote ++ " was skipped",
      steps := [] }
    (by decide) rfl rfl rfl (by decide)

/-! ## Claim theorems for output expression resolution (C7) -/

/-- A string with prefix `steps.` does not have prefix `env.`. -/
theorem goStartsWith_steps_not_env (s : String) (h : goStartsWith s "steps." = true) :
    goStartsWith s "env." = false := by
  unfold goStartsWith at h ⊢
  cases hs : s.toList with
  | nil => rw [hs] at h; exact absurd h (by decide)
  | cons c cs =>
    rw [hs] at h
    have h2 : ((Char.ofNat 115 == c) && (List.isPrefixOf "teps.".toList cs)) = true := h
    have hc : (Char.ofNat 115) = c := eq_of_beq ((Bool.and_eq_true _ _).mp h2).1
    rw [← hc]
    rfl

/-- A runtime with one recorded step output (`build.version = 1.2.3`) and
one dynamic environment entry, for concrete resolution checks. -/
def rtBuild : Runtime :=
  { dynamicEnv := [("HOME", "/root")],
    stepOutputs := [("build", [("version", "1.2.3")])] }

/-- C7 counterexample: `$\x7b\x7b steps.foo \x7d\x7d` matches neither the
`steps.<id>.outputs.<name>` pattern nor the `env.<name>` pattern, so by the
claim it should be passed through unchanged as a literal; the code instead
resolves every `steps.`/`env.`-prefixed expression it cannot resolve to the
empty string. -/
theorem output_expression_unresolved_not_passthrough :
    evaluateOutputExpression {} "$\x7b\x7b steps.foo \x7d\x7d" = "" ∧
    ("" : String) ≠ "$\x7b\x7b steps.foo \x7d\x7d" :=
  ⟨rfl, by decide⟩

/-- C7 amended: after trimming, unwrapping a `$\x7b\x7b ... \x7d\x7d`
wrapper and collapsing internal white space, a
`steps.<id>.outputs.<name>` expression resolves to the recorded step
output (empty string when the step or output is absent); an `env.<name>`
expression resolves to the dynamic environment entry (empty string when
absent); an expression whose normalised form starts with neither `steps.`
nor `env.` — and only such an expression — is passed through unchanged;
in particular the spec examples `steps.build.outputs.version` and
`steps.missing.outputs.x` resolve to `1.2.3` and `""`. -/
theorem evaluateOutputExpression_resolution :
    (∀ (rt : Runtime) (expression id name : String) (rest : List String),
       goStartsWith (outputExprNormalize expression) "steps." = true →
       goContains (outputExprNormalize expression) ".outputs." = true →
       goSplitChar (Char.ofNat 46) (outputExprNormalize expression) =
         "steps" :: id :: "outputs" :: name :: rest →
       evaluateOutputExpression rt expression =
         ((goMapGet rt.stepOutputs id).bind (fun so => goMapGet so name)).getD "") ∧
    (∀ (rt : Runtime) (expression : String),
       goStartsWith (outputExprNormalize expression) "steps." = false →
       goStartsWith (outputExprNormalize expression) "env." = true →
       evaluateOutputExpression rt expression =
         (goMapGet rt.dynamicEnv
           (String.mk ((outputExprNormalize expression).toList.drop 4))).getD "") ∧
    (∀ (rt : Runtime) (expression : String),
       goStartsWith (outputExprNormalize expression) "steps." = false →
       goStartsWith (outputExprNormalize expression) "env." = false →
       evaluateOutputExpression rt expression = expression) ∧
    (evaluateOutputExpression rtBuild "$\x7b\x7b steps.build.outputs.version \x7d\x7d" = "1.2.3" ∧
     evaluateOutputExpression rtBuild "$\x7b\x7b steps.missing.outputs.x \x7d\x7d" = "" ∧
     evaluateOutputExpression rtBuild "$\x7b\x7b env.HOME \x7d\x7d" = "/root") := by
  refine ⟨?_, ?_, ?_, rfl, rfl, rfl⟩
  · intro rt expression id name rest h1 h2 h3
    have henv := goStartsWith_steps_not_env _ h1
    unfold evaluateOutputExpression
    dsimp only
    rw [h1, h2, h3]
    cases hso : goMapGet rt.stepOutputs id with
    | none => simp [hso, henv]
    | some so =>
      cases hv : goMapGet so name with
      | none => simp [hso, hv, henv, Option.getD]
      | some v => simp [hso, hv, Option.getD]
  · intro rt expression h1 h2
    unfold evaluateOutputExpression
    dsimp only
    rw [h1, h2]
    cases hv : goMapGet rt.dynamicEnv (String.mk ((outputExprNormalize expression).toList.drop 4)) with
    | none => simp
    | some v => simp
  · intro rt expression h1 h2
    unfold evaluateOutputExpression
    dsimp only
    rw [h1, h2]
    simp

/-- Closed instantiation of `evaluateOutputExpression_resolution`: concrete
resolution of a recorded step output and passthrough of a plain literal. -/
theorem evaluateOutputExpression_resolution_witness :
    evaluateOutputExpression rtBuild "$\x7b\x7b steps.build.outputs.version \x7d\x7d" =
      ((goMapGet rtBuild.stepOutputs "build").bind (fun so => goMapGet so "version")).getD "" ∧
    evaluateOutputExpression rtBuild "hello world" = "hello world" :=
  ⟨evaluateOutputExpression_resolution.1 rtBuild _ "build" "version" []
     (by decide) (by decide) (by decide),
   evaluateOutputExpression_resolution.2.2.1 rtBuild "hello world" (by decide) (by decide)⟩
